import Mathlib

/-!
# RetroShare `serialization/serializer.h`: a shallow embedding

The wire-format codec of `libretroshare/src/serialization/serializer.h`:
the primitive codecs (`t_SerializerNType`, `RsTypeSerializer<float>`,
`RsTypeSerializer<std::string>`), the tri-mode dispatcher
`RsTypeSerializerBase::serial_process`, and the item level operations of
`RsSerializer` (`size_item`, `serialize_item`, `deserialize_item`).

Conventions of the embedding.

* A `uint8_t` is a `Byte` (`Fin 256`); a C++ `uint8_t *` is a `Mem`: `none`
  is the null pointer, `some buf` points to an allocation whose bytes are
  `buf` (so `buf.length` is the number of bytes that may be touched).
* `uint32_t` values are natural numbers; every `+=` of the source is
  followed by `% 2 ^ 32`.
* A function that touches memory returns an `Option`: `none` stands for
  undefined behaviour (a `memcpy` outside the allocation or through the
  null pointer), `some r` for a normal return.
* The host byte order is a parameter (`Endian`): `htonl`/`htons` and the
  in-memory bytes of an integer depend on it.
* A `float` is an `F32` (its sign, exponent and mantissa bits). The float
  codec takes its arithmetic as a parameter (`FloatArith`); `ieeeArith` is the
  arithmetic of the source in IEEE-754 binary32, round to nearest, ties to
  even.
-/

namespace RetroShare

/-! ## Bytes, memory and host byte order -/

/-- One `uint8_t`. -/
abbrev Byte := Fin 256

/-- A `uint8_t *`: `none` is `NULL`, `some buf` an allocation holding `buf`. -/
abbrev Mem := Option (List Byte)

/-- Byte order of the host. -/
inductive Endian where
  | little
  | big
  deriving DecidableEq, Repr

/-- The `w` low bytes of `v`, least significant byte first. -/
def toLE : Nat → Nat → List Byte
  | 0, _ => []
  | w + 1, v => ⟨v % 256, Nat.mod_lt v (by decide)⟩ :: toLE w (v / 256)

/-- The number whose bytes, least significant first, are `bs`. -/
def ofLE : List Byte → Nat
  | [] => 0
  | b :: bs => b.val + 256 * ofLE bs

/-- The `w` low bytes of `v`, most significant byte first (network order). -/
def toBE (w v : Nat) : List Byte := (toLE w v).reverse

/-- The number whose bytes, most significant first, are `bs`. -/
def ofBE (bs : List Byte) : Nat := ofLE bs.reverse

/-- The bytes a `w`-byte unsigned integer `v` occupies in the memory of a
host of byte order `e` (what `memcpy(dst, &v, w)` copies). -/
def hostBytes (e : Endian) (w v : Nat) : List Byte :=
  match e with
  | .little => toLE w v
  | .big => toBE w v

/-- The integer a host of byte order `e` holds after `memcpy(&v, src, w)`
of the bytes `bs`. -/
def ofHostBytes (e : Endian) (bs : List Byte) : Nat :=
  match e with
  | .little => ofLE bs
  | .big => ofBE bs

/-- Reversal of the `w` bytes of `v`. -/
def bswap (w v : Nat) : Nat := ofLE (toLE w v).reverse

/-- The libc `htonl`: identity on a big-endian host, byte swap otherwise. -/
def htonl (e : Endian) (v : Nat) : Nat :=
  match e with
  | .little => bswap 4 v
  | .big => v

/-- The libc `htons`. -/
def htons (e : Endian) (v : Nat) : Nat :=
  match e with
  | .little => bswap 2 v
  | .big => v

/-- The libc `ntohl`. -/
def ntohl (e : Endian) (v : Nat) : Nat := htonl e v

/-- The libc `ntohs`. -/
def ntohs (e : Endian) (v : Nat) : Nat := htons e v

/-- Source `template<typename T> T ntoh(T t)`, with `sizeofT = sizeof(T)`:
only the sizes 4 and 2 are converted, any other size is returned as is. -/
def ntoh (e : Endian) (sizeofT t : Nat) : Nat :=
  if sizeofT = 4 then ntohl e t
  else if sizeofT = 2 then ntohs e t
  else t

/-- Source `template<typename T> T hton(T t)`, with `sizeofT = sizeof(T)`:
only the sizes 4 and 2 are converted, any other size is returned as is. -/
def hton (e : Endian) (sizeofT t : Nat) : Nat :=
  if sizeofT = 4 then htonl e t
  else if sizeofT = 2 then htons e t
  else t

/-- The call `memcpy(data + off, src, bs.length)` where `src` holds `bs`:
`none` (undefined behaviour) when the destination range leaves the
allocation. -/
def memWrite (buf : List Byte) (off : Nat) (bs : List Byte) : Option (List Byte) :=
  if off + bs.length ≤ buf.length then
    some (buf.take off ++ bs ++ buf.drop (off + bs.length))
  else none

/-- The call `memcpy(dst, data + off, n)`: the `n` bytes read, `none`
(undefined behaviour) when the source range leaves the allocation. -/
def memRead (buf : List Byte) (off n : Nat) : Option (List Byte) :=
  if off + n ≤ buf.length then some ((buf.drop off).take n) else none

/-! ## `SerializeContext` and the job enumeration -/

/-- Source `RsSerializable::SerializeJob`. -/
inductive SerializeJob where
  | SIZE_ESTIMATE
  | SERIALIZE
  | DESERIALIZE
  deriving DecidableEq, Repr

/-- Source `class SerializeContext`. -/
structure SerializeContext where
  mData : Mem
  mSize : Nat
  mOffset : Nat
  mOk : Bool
  deriving DecidableEq, Repr

/-- Source constructor `SerializeContext(uint8_t *data, uint32_t size)`. -/
def SerializeContext.new (data : Mem) (size : Nat) : SerializeContext :=
  { mData := data, mSize := size, mOffset := 0, mOk := true }

/-! ## Integer codec `t_SerializerNType<N, SIZE>` -/

/-- Result of a primitive write: the returned `bool`, the memory and the
offset after the call. -/
structure WriteResult where
  ok : Bool
  data : Mem
  offset : Nat
  deriving DecidableEq, Repr

/-- Result of a primitive read of a value of type `α`: the returned `bool`,
the offset and the `member` after the call. -/
structure ReadResult (α : Type) where
  ok : Bool
  offset : Nat
  member : α
  deriving DecidableEq, Repr

/-- Source `t_SerializerNType<N, SIZE>::serialize`, where `sizeof(N) = SIZE`. -/
def t_SerializerNType.serialize (e : Endian) (SIZE : Nat) (data : Mem)
    (size offset member : Nat) : Option WriteResult :=
  if size ≤ offset ∨ size - offset < SIZE then
    some { ok := false, data := data, offset := offset }
  else
    let tmp := hton e SIZE member
    match data with
    | none => none
    | some buf =>
      match memWrite buf offset (hostBytes e SIZE tmp) with
      | none => none
      | some buf1 =>
        some { ok := true, data := some buf1, offset := (offset + SIZE) % 2 ^ 32 }

/-- Source `t_SerializerNType<N, SIZE>::deserialize`, where `sizeof(N) = SIZE`. -/
def t_SerializerNType.deserialize (e : Endian) (SIZE : Nat) (data : Mem)
    (size offset member : Nat) : Option (ReadResult Nat) :=
  if size ≤ offset ∨ size - offset < SIZE then
    some { ok := false, offset := offset, member := member }
  else
    match data with
    | none => none
    | some buf =>
      match memRead buf offset SIZE with
      | none => none
      | some bs =>
        let tmp := ofHostBytes e bs
        some { ok := true, offset := (offset + SIZE) % 2 ^ 32, member := ntoh e SIZE tmp }

/-- Source `t_SerializerNType<N, SIZE>::serial_size`. -/
def t_SerializerNType.serial_size (SIZE : Nat) (_member : Nat) : Nat := SIZE

/-! ## Float codec `RsTypeSerializer<float>` -/

/-- A C++ `float` (IEEE-754 binary32), by its sign, biased exponent and
mantissa fields. -/
structure F32 where
  sign : Bool
  expo : Fin 256
  mant : Fin (2 ^ 23)
  deriving DecidableEq, Repr

/-- Not-a-number: exponent all ones, mantissa non-zero. -/
def F32.isNaN (f : F32) : Bool := decide (f.expo.val = 255) && decide (f.mant.val ≠ 0)

/-- Plus or minus zero. -/
def F32.isZero (f : F32) : Bool := decide (f.expo.val = 0) && decide (f.mant.val = 0)

/-- The comparison `f < 0.0f`: sign bit set, and neither a NaN nor `-0.0f`. -/
def F32.ltZero (f : F32) : Bool := f.sign && !f.isNaN && !f.isZero

/-- The comparison `0.0f <= f` ("non-negative"): not a NaN, and either the
sign bit is clear or the value is `-0.0f`. -/
def F32.nonNeg (f : F32) : Bool := !f.isNaN && (!f.sign || f.isZero)

/-- The floating-point arithmetic of the float codec, kept abstract:
`quant tmp` is the `uint32_t n` of source lines 166-168 (`~0` when
`tmp < 1e-7`, else `(uint32_t)(1.0f/(1.0f+tmp) * ~0)`), `dequant n` is the
float `1.0f/(n/(float)~0) - 1.0f` of source line 185. -/
structure FloatArith where
  quant : F32 → Nat
  dequant : Nat → F32
  quant_lt : ∀ f, quant f < 2 ^ 32

/-- Source `RsTypeSerializer<float>::serial_size`. -/
def RsTypeSerializer_float.serial_size (_f : F32) : Nat := 4

/-- Source `RsTypeSerializer<float>::serialize`. -/
def RsTypeSerializer_float.serialize (e : Endian) (fa : FloatArith) (data : Mem)
    (size offset : Nat) (f : F32) : Option WriteResult :=
  let sz := RsTypeSerializer_float.serial_size f
  if data.isNone ∨ size ≤ offset ∨ size - offset < sz then
    some { ok := false, data := data, offset := offset }
  else
    let tmp := f
    if tmp.ltZero then
      some { ok := false, data := data, offset := offset }
    else
      let n := hton e 4 (fa.quant tmp)
      match data with
      | none => none
      | some buf =>
        match memWrite buf offset (hostBytes e sz n) with
        | none => none
        | some buf1 =>
          some { ok := true, data := some buf1, offset := (offset + sz) % 2 ^ 32 }

/-- Source `RsTypeSerializer<float>::deserialize`; the source does not advance
`offset` on this path. -/
def RsTypeSerializer_float.deserialize (e : Endian) (fa : FloatArith) (data : Mem)
    (size offset : Nat) (f : F32) : Option (ReadResult F32) :=
  let sz := RsTypeSerializer_float.serial_size f
  if data.isNone ∨ size ≤ offset ∨ size - offset < sz then
    some { ok := false, offset := offset, member := f }
  else
    match data with
    | none => none
    | some buf =>
      match memRead buf offset sz with
      | none => none
      | some bs =>
        let n := ntoh e 4 (ofHostBytes e bs)
        some { ok := true, offset := offset, member := fa.dequant n }

/-! ## String codec `RsTypeSerializer<std::string>` -/

/-- Source `RsTypeSerializer<std::string>::serial_size`: `s.length() + 4`
converted to `uint32_t`. -/
def RsTypeSerializer_string.serial_size (s : List Byte) : Nat := (s.length + 4) % 2 ^ 32

/-- Source `RsTypeSerializer<std::string>::serialize`. -/
def RsTypeSerializer_string.serialize (e : Endian) (data : Mem)
    (size offset : Nat) (s : List Byte) : Option WriteResult :=
  if data.isNone ∨ size ≤ offset ∨ size - offset < RsTypeSerializer_string.serial_size s then
    some { ok := false, data := data, offset := offset }
  else
    let charsLen := s.length % 2 ^ 32
    let netLen := hton e 4 charsLen
    match data with
    | none => none
    | some buf =>
      match memWrite buf offset (hostBytes e 4 netLen) with
      | none => none
      | some buf1 =>
        let offset1 := (offset + 4) % 2 ^ 32
        match memWrite buf1 offset1 (s.take charsLen) with
        | none => none
        | some buf2 =>
          some { ok := true, data := some buf2, offset := (offset1 + charsLen) % 2 ^ 32 }

/-- Source `RsTypeSerializer<std::string>::deserialize`. -/
def RsTypeSerializer_string.deserialize (e : Endian) (data : Mem)
    (size offset : Nat) (s : List Byte) : Option (ReadResult (List Byte)) :=
  if data.isNone ∨ size ≤ offset ∨ size - offset < 4 then
    some { ok := false, offset := offset, member := s }
  else
    match data with
    | none => none
    | some buf =>
      match memRead buf offset 4 with
      | none => none
      | some bs =>
        let offset1 := (offset + 4) % 2 ^ 32
        let charsLen := ntoh e 4 (ofHostBytes e bs)
        if size ≤ offset1 ∨ size - offset1 < charsLen then
          some { ok := false, offset := offset1, member := s }
        else
          match memRead buf offset1 charsLen with
          | none => none
          | some cs =>
            some { ok := true, offset := (offset1 + charsLen) % 2 ^ 32, member := cs }

/-! ## The dispatcher `RsTypeSerializerBase<T>::serial_process` -/

/-- A member of one of the types `RsTypeSerializer` is specialised for. -/
inductive Field where
  | u8 (v : Nat)
  | u16 (v : Nat)
  | u32 (v : Nat)
  | u64 (v : Nat)
  | time (v : Nat)
  | float (f : F32)
  | string (s : List Byte)
  deriving DecidableEq, Repr

/-- The virtual `serial_size` of `RsTypeSerializer<T>` for the member's type. -/
def Field.serial_size : Field → Nat
  | .u8 v => t_SerializerNType.serial_size 1 v
  | .u16 v => t_SerializerNType.serial_size 2 v
  | .u32 v => t_SerializerNType.serial_size 4 v
  | .u64 v => t_SerializerNType.serial_size 8 v
  | .time v => t_SerializerNType.serial_size 8 v
  | .float f => RsTypeSerializer_float.serial_size f
  | .string s => RsTypeSerializer_string.serial_size s

/-- The virtual `serialize` of `RsTypeSerializer<T>` for the member's type. -/
def Field.serialize (e : Endian) (fa : FloatArith) (data : Mem) (size offset : Nat) :
    Field → Option WriteResult
  | .u8 v => t_SerializerNType.serialize e 1 data size offset v
  | .u16 v => t_SerializerNType.serialize e 2 data size offset v
  | .u32 v => t_SerializerNType.serialize e 4 data size offset v
  | .u64 v => t_SerializerNType.serialize e 8 data size offset v
  | .time v => t_SerializerNType.serialize e 8 data size offset v
  | .float f => RsTypeSerializer_float.serialize e fa data size offset f
  | .string s => RsTypeSerializer_string.serialize e data size offset s

/-- Retag the member of a read result. -/
def ReadResult.map {α β : Type} (g : α → β) (r : ReadResult α) : ReadResult β :=
  { ok := r.ok, offset := r.offset, member := g r.member }

/-- The virtual `deserialize` of `RsTypeSerializer<T>` for the member's type. -/
def Field.deserialize (e : Endian) (fa : FloatArith) (data : Mem) (size offset : Nat) :
    Field → Option (ReadResult Field)
  | .u8 v => (t_SerializerNType.deserialize e 1 data size offset v).map (ReadResult.map .u8)
  | .u16 v => (t_SerializerNType.deserialize e 2 data size offset v).map (ReadResult.map .u16)
  | .u32 v => (t_SerializerNType.deserialize e 4 data size offset v).map (ReadResult.map .u32)
  | .u64 v => (t_SerializerNType.deserialize e 8 data size offset v).map (ReadResult.map .u64)
  | .time v => (t_SerializerNType.deserialize e 8 data size offset v).map (ReadResult.map .time)
  | .float f =>
      (RsTypeSerializer_float.deserialize e fa data size offset f).map (ReadResult.map .float)
  | .string s =>
      (RsTypeSerializer_string.deserialize e data size offset s).map (ReadResult.map .string)

/-- Source `RsTypeSerializerBase<T>::serial_process`: the context and the
member after the call. The `bool` returned by `serialize`/`deserialize` is
dropped, as in the source, and `mOk` is never assigned. -/
def RsTypeSerializerBase.serial_process (e : Endian) (fa : FloatArith)
    (j : SerializeJob) (ctx : SerializeContext) (member : Field) :
    Option (SerializeContext × Field) :=
  match j with
  | .SIZE_ESTIMATE =>
      some ({ ctx with mSize := (ctx.mSize + member.serial_size) % 2 ^ 32 }, member)
  | .DESERIALIZE =>
      match member.deserialize e fa ctx.mData ctx.mSize ctx.mOffset with
      | none => none
      | some r => some ({ ctx with mOffset := r.offset }, r.member)
  | .SERIALIZE =>
      match member.serialize e fa ctx.mData ctx.mSize ctx.mOffset with
      | none => none
      | some r => some ({ ctx with mData := r.data, mOffset := r.offset }, member)

/-! ## Items -/

/-- An item (`RsSerializable`) whose `serial_process` calls the dispatcher
once per member, in declaration order: `PacketId` is the value of the
inherited `RsItem::PacketId()`, `fields` the members. -/
structure RsSerializable where
  PacketId : Nat
  fields : List Field
  deriving DecidableEq, Repr

/-- The body of such an item's `serial_process`: one dispatcher call per
member, left to right, on the shared context. -/
def serial_fields (e : Endian) (fa : FloatArith) (j : SerializeJob) :
    SerializeContext → List Field → Option (SerializeContext × List Field)
  | ctx, [] => some (ctx, [])
  | ctx, m :: ms =>
      match RsTypeSerializerBase.serial_process e fa j ctx m with
      | none => none
      | some (ctx1, m1) =>
        match serial_fields e fa j ctx1 ms with
        | none => none
        | some (ctx2, ms1) => some (ctx2, m1 :: ms1)

/-- The virtual `RsSerializable::serial_process` of such an item. -/
def RsSerializable.serial_process (e : Endian) (fa : FloatArith) (j : SerializeJob)
    (ctx : SerializeContext) (item : RsSerializable) :
    Option (SerializeContext × RsSerializable) :=
  match serial_fields e fa j ctx item.fields with
  | none => none
  | some (ctx1, fs) => some (ctx1, { item with fields := fs })

/-! ## The top-level codec `RsSerializer` -/

/-- Modelled from the spec: the header codec of `serialiser/rsserial.h`
(`setRsItemHeader`, `getRsItemId`, `getRsItemService`, `getRsItemSubType`),
which is not part of the source tree; it is taken as a parameter.
`setRsItemHeader data size type pktsize` gives the returned `bool` and the
memory after the call. -/
structure HeaderCodec where
  setRsItemHeader : Mem → Nat → Nat → Nat → Bool × Mem
  getRsItemId : Mem → Nat
  getRsItemService : Nat → Nat
  getRsItemSubType : Nat → Nat

/-- Modelled from the spec: a header codec with the layout the spec gives
for the 8-byte header ("writes the fixed-size header encoding
(format_version, service_id, sub_type) and total item length at the start of
the buffer"): the 4-byte type identifier, then the 4-byte length, both in
network order; the write fails when fewer than 8 bytes are declared. -/
def rsHeader : HeaderCodec where
  setRsItemHeader data size type pktsize :=
    match data with
    | none => (false, none)
    | some buf =>
      if size < 8 ∨ buf.length < 8 then (false, some buf)
      else (true, some (toBE 4 type ++ toBE 4 pktsize ++ buf.drop 8))
  getRsItemId data :=
    match data with
    | none => 0
    | some buf => ofBE (buf.take 4)
  getRsItemService type := type / 256 % 65536
  getRsItemSubType type := type % 256

/-- Source `RsSerializer::create_item` (the base class version): always `NULL`. -/
def RsSerializer.create_item (_service _item_sub_id : Nat) : Option RsSerializable := none

/-- Source `RsSerializer::size_item`. -/
def RsSerializer.size_item (e : Endian) (fa : FloatArith) (item : RsSerializable) :
    Option Nat :=
  let ctx := SerializeContext.new none 0
  let ctx := { ctx with mSize := 8 }
  match item.serial_process e fa .SIZE_ESTIMATE ctx with
  | none => none
  | some (ctx1, _) => some ctx1.mSize

/-- What a call of `serialize_item` does: undefined behaviour, the
`std::runtime_error` with the memory at the time of the throw, or a return
with the returned `bool`, the memory and the local context at the time of the
return. -/
inductive SerializeOutcome where
  | undefined
  | threw (msg : String) (data : Mem)
  | returned (ok : Bool) (data : Mem) (ctx : SerializeContext)
  deriving DecidableEq, Repr

/-- Source `RsSerializer::serialize_item`. The context's `mData` holds the
current content of the caller's buffer. -/
def RsSerializer.serialize_item (hc : HeaderCodec) (e : Endian) (fa : FloatArith)
    (item : RsSerializable) (data : Mem) (size : Nat) : SerializeOutcome :=
  let ctx := SerializeContext.new data 0
  match RsSerializer.size_item e fa item with
  | none => .undefined
  | some tlvsize =>
    if tlvsize > size then
      .threw "Cannot serialise: not enough room." data
    else
      let hdr := hc.setRsItemHeader data tlvsize item.PacketId tlvsize
      if !hdr.1 then
        .returned false hdr.2 { ctx with mData := hdr.2 }
      else
        let ctx := { ctx with mData := hdr.2, mOffset := 8, mSize := tlvsize }
        match item.serial_process e fa .SERIALIZE ctx with
        | none => .undefined
        | some (ctx1, _) =>
          if ctx1.mSize ≠ ctx1.mOffset then .returned false ctx1.mData ctx1
          else .returned true ctx1.mData ctx1

/-- Source `RsSerializer::deserialize_item`, for a serializer whose virtual
`create_item` is `create_item`: `none` is undefined behaviour, `some none`
the return of `NULL`, `some (some item)` the return of an item. -/
def RsSerializer.deserialize_item (hc : HeaderCodec)
    (create_item : Nat → Nat → Option RsSerializable) (e : Endian) (fa : FloatArith)
    (data : Mem) (size : Nat) : Option (Option RsSerializable) :=
  let rstype := hc.getRsItemId data
  match create_item (hc.getRsItemService rstype) (hc.getRsItemSubType rstype) with
  | none => some none
  | some item =>
    let ctx := SerializeContext.new data size
    match item.serial_process e fa .DESERIALIZE ctx with
    | none => none
    | some (ctx1, item1) => if ctx1.mOk then some (some item1) else some none

/-- A float arithmetic for concrete runs: every float is sent as `~0` and
every word is received as `+0.0f`. -/
def zeroArith : FloatArith where
  quant _ := 2 ^ 32 - 1
  dequant _ := ⟨false, 0, 0⟩
  quant_lt := fun _ => by show 2 ^ 32 - 1 < 2 ^ 32; decide

/-! ## The binary32 arithmetic of the float codec

The expressions of source lines 166-168 and 185, evaluated in IEEE-754
binary32 with round-to-nearest, ties-to-even, every operation rounded to
`float` (`FLT_EVAL_METHOD` 0). Every operand the codec passes to these
operations has a clear sign bit, so magnitudes suffice: a finite float is the
rational `num / 2 ^ 149`. -/

/-- The magnitude of a finite float in units of `2 ^ -149`: the mantissa of a
subnormal, `(2 ^ 23 + mant) * 2 ^ (expo - 1)` for a normal number. -/
def F32.num (f : F32) : Nat :=
  if f.expo.val = 0 then f.mant.val else (2 ^ 23 + f.mant.val) * 2 ^ (f.expo.val - 1)

/-- Plus or minus infinity: exponent all ones, mantissa zero. -/
def F32.isInf (f : F32) : Bool := decide (f.expo.val = 255) && decide (f.mant.val = 0)

/-- The float `+inf`. -/
def F32.posInf : F32 := ⟨false, 255, 0⟩

/-- A quiet NaN. -/
def F32.qNaN : F32 := ⟨false, 255, ⟨2 ^ 22, by decide⟩⟩

/-- The float `1.0f`. -/
def F32.one : F32 := ⟨false, 127, 0⟩

/-- The integer nearest to `a / b`, ties to the even one. -/
def divRNE (a b : Nat) : Nat :=
  let q := a / b
  let r := a % b
  if 2 * r < b then q
  else if b < 2 * r then q + 1
  else if q % 2 = 0 then q
  else q + 1

/-- The number of times `n` can be halved before it drops below 2, at most
`fuel` times: with `fuel = n` this is the position of the leading bit of `n`
(`floor (log2 n)`, and 0 for `n = 0`). -/
def halvings : Nat → Nat → Nat
  | 0, _ => 0
  | fuel + 1, n => if n < 2 then 0 else halvings fuel (n / 2) + 1

/-- The float with clear sign bit whose 24-bit significand is `m` (at most
`2 ^ 24`) in units of `2 ^ (kb - 149)`: a subnormal when `m < 2 ^ 23`,
otherwise a normal number of biased exponent `kb + 1` (one more when the
rounding carried to `2 ^ 24`), `+inf` when the exponent overflows. -/
def packF32 (kb m : Nat) : F32 :=
  if m < 2 ^ 23 then ⟨false, 0, ⟨m % 2 ^ 23, Nat.mod_lt _ (by decide)⟩⟩
  else
    let ex := kb + 1 + (if m = 2 ^ 24 then 1 else 0)
    if 255 ≤ ex then F32.posInf
    else ⟨false, ⟨ex % 256, Nat.mod_lt _ (by decide)⟩, ⟨m % 2 ^ 23, Nat.mod_lt _ (by decide)⟩⟩

/-- The float nearest to the non-negative rational `a / b` (`0 < b`), ties to
even, `+inf` on overflow: with `eb` the position of the leading bit of
`a / b` in units of `2 ^ -149`, the unit in the last place is `2 ^ (eb - 23)`
of those units (one unit for subnormals), and the significand is `a / b` in
those units, rounded. -/
def roundF32 (a b : Nat) : F32 :=
  let n := a * 2 ^ 149
  let eb := halvings (n / b) (n / b)
  let kb := eb - 23
  packF32 kb (divRNE n (b * 2 ^ kb))

/-- The conversion of a `uint32_t` to `float`. -/
def u32ToF32 (n : Nat) : F32 := roundF32 n 1

/-- The sum `x + y` of two floats with clear sign bits. -/
def F32.add (x y : F32) : F32 :=
  if x.isNaN || y.isNaN then F32.qNaN
  else if x.isInf || y.isInf then F32.posInf
  else roundF32 (x.num + y.num) (2 ^ 149)

/-- The difference `x - y` of two floats with clear sign bits. -/
def F32.sub (x y : F32) : F32 :=
  if x.isNaN || y.isNaN then F32.qNaN
  else if x.isInf && y.isInf then F32.qNaN
  else if x.isInf then F32.posInf
  else if y.isInf then ⟨true, 255, 0⟩
  else if y.num ≤ x.num then roundF32 (x.num - y.num) (2 ^ 149)
  else { roundF32 (y.num - x.num) (2 ^ 149) with sign := true }

/-- The product `x * y` of two floats with clear sign bits. -/
def F32.mul (x y : F32) : F32 :=
  if x.isNaN || y.isNaN then F32.qNaN
  else if x.isInf || y.isInf then
    (if (x.isZero || y.isZero) then F32.qNaN else F32.posInf)
  else roundF32 (x.num * y.num) (2 ^ 149 * 2 ^ 149)

/-- The quotient `x / y` of two floats with clear sign bits. -/
def F32.div (x y : F32) : F32 :=
  if x.isNaN || y.isNaN then F32.qNaN
  else if x.isInf then (if y.isInf then F32.qNaN else F32.posInf)
  else if y.isInf then ⟨false, 0, 0⟩
  else if y.isZero then (if x.isZero then F32.qNaN else F32.posInf)
  else roundF32 x.num y.num

/-- The comparison `tmp < 1e-7` of source line 167: `tmp` is promoted to
`double` (exactly) and compared with the `double` nearest to `1e-7`, which is
`944473296573929 / 2 ^ 73`. -/
def F32.ltDouble1em7 (f : F32) : Bool :=
  if f.isNaN then false
  else if f.sign then true
  else if f.isInf then false
  else decide (f.num * 2 ^ 73 < 944473296573929 * 2 ^ 149)

/-- The conversion `(uint32_t) c` of a float with clear sign bit: truncation.
C++ leaves the conversion undefined for a NaN, an infinity or a value of
`2 ^ 32` or more; the embedding gives `0` and the value modulo `2 ^ 32`
there. -/
def F32.toU32 (c : F32) : Nat :=
  if c.isNaN || c.isInf then 0 else (c.num / 2 ^ 149) % 2 ^ 32

/-- Source lines 166-168: `if(tmp < 1e-7) n = (~(uint32_t)0); else n =
((uint32_t)( (1.0f/(1.0f+tmp) * (~(uint32_t)0))));`. -/
def ieeeQuant (tmp : F32) : Nat :=
  if tmp.ltDouble1em7 then 2 ^ 32 - 1
  else ((F32.one.div (F32.one.add tmp)).mul (u32ToF32 (2 ^ 32 - 1))).toU32

/-- Source line 185: `f = 1.0f/ ( n/(float)(~(uint32_t)0)) - 1.0f;`. -/
def ieeeDequant (n : Nat) : F32 :=
  (F32.one.div ((u32ToF32 n).div (u32ToF32 (2 ^ 32 - 1)))).sub F32.one

/-- The arithmetic of the float codec as the source computes it in
binary32. -/
def ieeeArith : FloatArith where
  quant := ieeeQuant
  dequant := ieeeDequant
  quant_lt := fun tmp => by
    show ieeeQuant tmp < 2 ^ 32
    unfold ieeeQuant F32.toU32
    split
    · decide
    · split
      · decide
      · exact Nat.mod_lt _ (by decide)

/-! ## Specification-side measures and example items -/

/-- The encoded length of a member as the specification tabulates it: the
width of an integer, 8 for a time value, 4 for a float, `len(s) + 4` for a
string (a natural number, not reduced modulo `2 ^ 32`). -/
def Field.wireLength : Field → Nat
  | .u8 _ => 1
  | .u16 _ => 2
  | .u32 _ => 4
  | .u64 _ => 8
  | .time _ => 8
  | .float _ => 4
  | .string s => s.length + 4

/-- The encoded length of a list of members. -/
def wireLength : List Field → Nat
  | [] => 0
  | m :: ms => m.wireLength + wireLength ms

/-- A float member is non-negative; every other member qualifies. -/
def Field.nonNegFloat : Field → Prop
  | .float f => f.nonNeg = true
  | _ => True

instance (m : Field) : Decidable m.nonNegFloat := by
  cases m <;> simp only [Field.nonNegFloat] <;> infer_instance

/-- The float codec refuses to write the member: a float with `tmp < 0.0f`.
No other member is refused for its value. -/
def Field.writeRejected : Field → Bool
  | .float f => f.ltZero
  | _ => false

/-- The encoded length of the members of a list that are not refused. -/
def acceptedLength : List Field → Nat
  | [] => 0
  | m :: ms => (if m.writeRejected then 0 else m.wireLength) + acceptedLength ms

/-- The `bool`s returned by the primitive `serialize` calls of the writing
traversal, in member order. The dispatcher drops them; this replay of
`serial_fields` in `SERIALIZE` mode records them, threading the context
through the dispatcher itself. -/
def write_results (e : Endian) (fa : FloatArith) :
    SerializeContext → List Field → Option (List Bool)
  | _, [] => some []
  | ctx, m :: ms =>
      match m.serialize e fa ctx.mData ctx.mSize ctx.mOffset,
          RsTypeSerializerBase.serial_process e fa .SERIALIZE ctx m with
      | some r, some (ctx1, _) =>
        match write_results e fa ctx1 ms with
        | none => none
        | some oks => some (r.ok :: oks)
      | _, _ => none

/-- The virtual `create_item` of an example serializer: service `0x1234` has
the item sub-type 1, with one `uint32_t` member, and the item sub-type 2, with
a `uint32_t` and a string member; fresh items hold `0` and `""`. -/
def exampleCreate (service item_sub_id : Nat) : Option RsSerializable :=
  if service = 0x1234 ∧ item_sub_id = 1 then
    some { PacketId := 0x02123401, fields := [.u32 0] }
  else if service = 0x1234 ∧ item_sub_id = 2 then
    some { PacketId := 0x02123402, fields := [.u32 0, .string []] }
  else none

/-! ## Concrete runs -/

example : t_SerializerNType.serialize .little 4 (some [9, 9, 9, 9, 9]) 5 1 1
    = some ⟨true, some [9, 0, 0, 0, 1], 5⟩ := by decide
example : t_SerializerNType.serialize .little 8 (some [9, 9, 9, 9, 9, 9, 9, 9]) 8 0 1
    = some ⟨true, some [1, 0, 0, 0, 0, 0, 0, 0], 8⟩ := by decide
example : t_SerializerNType.deserialize .little 2 (some [1, 2, 3]) 3 1 0
    = some ⟨true, 3, 0x0203⟩ := by decide

example : RsSerializer.serialize_item rsHeader .little zeroArith
    ⟨0x02001101, [.u32 7, .string [104, 105]]⟩ (some (List.replicate 19 9)) 18
    = .returned true
        (some [2, 0, 0x11, 1, 0, 0, 0, 18, 0, 0, 0, 7, 0, 0, 0, 2, 104, 105, 9])
        ⟨some [2, 0, 0x11, 1, 0, 0, 0, 18, 0, 0, 0, 7, 0, 0, 0, 2, 104, 105, 9], 18, 18, true⟩ := by
  decide

/-! ## Byte-level lemmas -/

theorem toLE_length (w v : Nat) : (toLE w v).length = w := by
  induction w generalizing v with
  | zero => rfl
  | succ w ih => simp [toLE, ih]

theorem ofLE_toLE (w v : Nat) : ofLE (toLE w v) = v % 256 ^ w := by
  induction w generalizing v with
  | zero => simp [toLE, ofLE, Nat.mod_one]
  | succ w ih =>
    simp only [toLE, ofLE, ih]
    rw [pow_succ, mul_comm (256 ^ w) 256, Nat.mod_mul]

theorem toLE_ofLE (bs : List Byte) : toLE bs.length (ofLE bs) = bs := by
  induction bs with
  | nil => rfl
  | cons b bs ih =>
    have hb : b.val < 256 := b.isLt
    have h1 : (b.val + 256 * ofLE bs) % 256 = b.val := by omega
    have h2 : (b.val + 256 * ofLE bs) / 256 = ofLE bs := by omega
    simp only [List.length_cons, toLE, ofLE, h2, ih, List.cons.injEq, and_true]
    exact Fin.ext h1

theorem ofLE_lt (bs : List Byte) : ofLE bs < 256 ^ bs.length := by
  induction bs with
  | nil => simp [ofLE]
  | cons b bs ih =>
    have hb : b.val < 256 := b.isLt
    simp only [ofLE, List.length_cons, pow_succ]
    omega

theorem toBE_length (w v : Nat) : (toBE w v).length = w := by
  simp [toBE, toLE_length]

theorem hostBytes_length (e : Endian) (w v : Nat) : (hostBytes e w v).length = w := by
  cases e <;> simp [hostBytes, toBE, toLE_length]

theorem ofHostBytes_hostBytes (e : Endian) (w v : Nat) :
    ofHostBytes e (hostBytes e w v) = v % 256 ^ w := by
  cases e <;> simp [ofHostBytes, hostBytes, toBE, ofBE, ofLE_toLE]

theorem bswap_lt (w v : Nat) : bswap w v < 256 ^ w := by
  have h := ofLE_lt (toLE w v).reverse
  simpa [bswap, toLE_length] using h

theorem toLE_bswap (w v : Nat) : toLE w (bswap w v) = (toLE w v).reverse := by
  have h := toLE_ofLE (toLE w v).reverse
  simpa [bswap, toLE_length] using h

theorem bswap_bswap (w v : Nat) : bswap w (bswap w v) = v % 256 ^ w := by
  have h : bswap w (bswap w v) = ofLE (toLE w (bswap w v)).reverse := rfl
  rw [h, toLE_bswap, List.reverse_reverse, ofLE_toLE]

/-- `hton` keeps a `w`-byte value within `w` bytes. -/
theorem hton_lt (e : Endian) (w v : Nat) (hv : v < 256 ^ w) : hton e w v < 256 ^ w := by
  unfold hton
  split
  · subst w; cases e
    · exact bswap_lt 4 v
    · exact hv
  · split
    · subst w; cases e
      · exact bswap_lt 2 v
      · exact hv
    · exact hv

/-- `ntoh` undoes `hton` on every host and for every size. -/
theorem ntoh_hton (e : Endian) (w v : Nat) (hv : v < 256 ^ w) :
    ntoh e w (hton e w v) = v := by
  unfold ntoh hton
  split
  · subst w; cases e
    · simp only [ntohl, htonl, bswap_bswap, Nat.mod_eq_of_lt hv]
    · rfl
  · split
    · subst w; cases e
      · simp only [ntohs, htons, bswap_bswap, Nat.mod_eq_of_lt hv]
      · rfl
    · rfl

/-- For the sizes `hton` converts, the bytes stored are the network-order
bytes on every host. -/
theorem hostBytes_hton_eq_toBE (e : Endian) (w v : Nat) (hw : w = 2 ∨ w = 4) :
    hostBytes e w (hton e w v) = toBE w v := by
  rcases hw with rfl | rfl <;> cases e <;>
    simp [hostBytes, hton, htonl, htons, toLE_bswap, toBE]

theorem hostBytes_one (e : Endian) (v : Nat) : hostBytes e 1 (hton e 1 v) = toBE 1 v := by
  cases e <;> simp [hostBytes, hton, toBE, toLE]

/-! ## Memory lemmas -/

theorem memWrite_eq_some (buf : List Byte) (off : Nat) (bs : List Byte)
    (h : off + bs.length ≤ buf.length) :
    memWrite buf off bs = some (buf.take off ++ bs ++ buf.drop (off + bs.length)) := by
  simp [memWrite, h]

theorem memWrite_length {buf buf1 : List Byte} {off : Nat} {bs : List Byte}
    (h : memWrite buf off bs = some buf1) : buf1.length = buf.length := by
  unfold memWrite at h
  split at h
  · cases h
    simp only [List.length_append, List.length_take, List.length_drop]
    omega
  · cases h

theorem memRead_memWrite {buf buf1 : List Byte} {off : Nat} {bs : List Byte}
    (h : memWrite buf off bs = some buf1) : memRead buf1 off bs.length = some bs := by
  have hlen := memWrite_length h
  unfold memWrite at h
  split at h
  · rename_i hle
    cases h
    have h1 : (List.take off buf).length = off := by
      simp only [List.length_take]; omega
    unfold memRead
    rw [if_pos (by rw [hlen]; exact hle)]
    rw [List.append_assoc, List.drop_append_of_le_length (by omega)]
    rw [List.drop_of_length_le (by omega), List.nil_append]
    simp
  · cases h

/-! ## The integer codec -/

/-- With room for `SIZE` bytes the integer write succeeds, stores the host
bytes of `hton member` at `offset` and advances by `SIZE`. -/
theorem int_serialize_of_room (e : Endian) (SIZE size offset member : Nat)
    (buf : List Byte) (hS : 0 < SIZE) (hsize : size < 2 ^ 32) (hbuf : size ≤ buf.length)
    (hroom : SIZE ≤ size - offset) :
    t_SerializerNType.serialize e SIZE (some buf) size offset member
      = some { ok := true,
               data := some (buf.take offset ++ hostBytes e SIZE (hton e SIZE member)
                        ++ buf.drop (offset + SIZE)),
               offset := offset + SIZE } := by
  have hlen := hostBytes_length e SIZE (hton e SIZE member)
  have hguard : ¬ (size ≤ offset ∨ size - offset < SIZE) := by omega
  have hmod : (offset + SIZE) % 2 ^ 32 = offset + SIZE := Nat.mod_eq_of_lt (by omega)
  have hw := memWrite_eq_some (buf) (offset) (hostBytes e SIZE (hton e SIZE member)) (by omega)
  simp only [t_SerializerNType.serialize, if_neg hguard, hw, hmod, hlen]

/-- With room for `SIZE` bytes the integer read succeeds, decodes the
`SIZE` bytes at `offset` and advances by `SIZE`. -/
theorem int_deserialize_of_room (e : Endian) (SIZE size offset member : Nat)
    (buf : List Byte) (hS : 0 < SIZE) (hsize : size < 2 ^ 32) (hbuf : size ≤ buf.length)
    (hroom : SIZE ≤ size - offset) :
    t_SerializerNType.deserialize e SIZE (some buf) size offset member
      = some { ok := true, offset := offset + SIZE,
               member := ntoh e SIZE (ofHostBytes e ((buf.drop offset).take SIZE)) } := by
  have hguard : ¬ (size ≤ offset ∨ size - offset < SIZE) := by omega
  have hmod : (offset + SIZE) % 2 ^ 32 = offset + SIZE := Nat.mod_eq_of_lt (by omega)
  have hr : memRead buf offset SIZE = some ((buf.drop offset).take SIZE) := by
    simp only [memRead]; rw [if_pos (by omega)]
  simp only [t_SerializerNType.deserialize, if_neg hguard, hr, hmod]

/-- Without room for `SIZE` bytes the integer read fails and touches
nothing. -/
theorem int_deserialize_of_no_room (e : Endian) (SIZE size offset member : Nat)
    (data : Mem) (hroom : size - offset < SIZE) :
    t_SerializerNType.deserialize e SIZE data size offset member
      = some { ok := false, offset := offset, member := member } := by
  simp [t_SerializerNType.deserialize, hroom]

/-- C6. Integer round trip: for every width `W` in {1, 2, 4, 8}, every
`W`-byte unsigned value `v`, every host byte order, and every capacity and
offset with `capacity - offset >= W`, the write succeeds and advances the
offset by exactly `W`, and the read at the same offset of the resulting buffer
succeeds, returns exactly `v` and advances the offset by exactly `W`; a time
value goes through the same 8-byte codec with the same result. -/
theorem integer_round_trip (e : Endian) (fa : FloatArith) (W v size offset old : Nat)
    (buf : List Byte) (hW : W = 1 ∨ W = 2 ∨ W = 4 ∨ W = 8) (hv : v < 2 ^ (8 * W))
    (hsize : size < 2 ^ 32) (hbuf : size ≤ buf.length) (hroom : W ≤ size - offset) :
    ∃ buf1 : List Byte,
      t_SerializerNType.serialize e W (some buf) size offset v
        = some { ok := true, data := some buf1, offset := offset + W } ∧
      t_SerializerNType.deserialize e W (some buf1) size offset old
        = some { ok := true, offset := offset + W, member := v } ∧
      (W = 8 →
        Field.serialize e fa (some buf) size offset (.time v)
          = some { ok := true, data := some buf1, offset := offset + 8 } ∧
        Field.deserialize e fa (some buf1) size offset (.time old)
          = some { ok := true, offset := offset + 8, member := .time v }) := by
  have hS : 0 < W := by omega
  have hv1 : v < 256 ^ W := by
    have : (256 : Nat) ^ W = 2 ^ (8 * W) := by
      rw [show (256 : Nat) = 2 ^ 8 by norm_num, ← pow_mul]
    omega
  have hlen := hostBytes_length e W (hton e W v)
  have hwr := int_serialize_of_room e W size offset v buf hS hsize hbuf hroom
  have hmw := memWrite_eq_some (buf) (offset) (hostBytes e W (hton e W v)) (by omega)
  rw [hlen] at hmw
  have hml := memWrite_length hmw
  have hmr := memRead_memWrite hmw
  rw [hlen] at hmr
  have hrd : t_SerializerNType.deserialize e W
      (some (buf.take offset ++ hostBytes e W (hton e W v) ++ buf.drop (offset + W)))
      size offset old = some { ok := true, offset := offset + W, member := v } := by
    rw [int_deserialize_of_room e W size offset old _ hS hsize (by omega) hroom]
    have hbytes : (List.drop offset
        (buf.take offset ++ hostBytes e W (hton e W v) ++ buf.drop (offset + W))).take W
          = hostBytes e W (hton e W v) := by
      have := hmr
      simp only [memRead] at this
      rw [if_pos (by omega)] at this
      exact Option.some.inj this
    rw [hbytes, ofHostBytes_hostBytes, Nat.mod_eq_of_lt (hton_lt e W v hv1), ntoh_hton e W v hv1]
  refine ⟨_, hwr, hrd, ?_⟩
  intro h8
  subst h8
  refine ⟨hwr, ?_⟩
  simp only [Field.deserialize, hrd, Option.map_some', ReadResult.map]

/-- Witness for C6: the value `0x0102030405060708` written as a `uint64_t` on
a little-endian host into a 10-byte buffer at offset 1. -/
theorem integer_round_trip_witness :
    ∃ buf1 : List Byte,
      t_SerializerNType.serialize .little 8 (some (List.replicate 10 0)) 10 1 0x0102030405060708
        = some { ok := true, data := some buf1, offset := 1 + 8 } ∧
      t_SerializerNType.deserialize .little 8 (some buf1) 10 1 0
        = some { ok := true, offset := 1 + 8, member := 0x0102030405060708 } ∧
      (8 = 8 →
        Field.serialize .little zeroArith (some (List.replicate 10 0)) 10 1
            (.time 0x0102030405060708)
          = some { ok := true, data := some buf1, offset := 1 + 8 } ∧
        Field.deserialize .little zeroArith (some buf1) 10 1 (.time 0)
          = some { ok := true, offset := 1 + 8, member := .time 0x0102030405060708 }) :=
  integer_round_trip .little zeroArith 8 0x0102030405060708 10 1 0 (List.replicate 10 0)
    (by decide) (by decide) (by decide) (by decide) (by decide)

/-- On every host the integer write stores the network-order bytes of the
value for the widths 1, 2 and 4, and for the width 8 on a big-endian host. -/
theorem int_serialize_network_order (e : Endian) (W v size offset : Nat) (buf : List Byte)
    (hW : W = 1 ∨ W = 2 ∨ W = 4 ∨ (W = 8 ∧ e = .big))
    (hsize : size < 2 ^ 32) (hbuf : size ≤ buf.length) (hroom : W ≤ size - offset) :
    t_SerializerNType.serialize e W (some buf) size offset v
      = some { ok := true,
               data := some (buf.take offset ++ toBE W v ++ buf.drop (offset + W)),
               offset := offset + W } := by
  have hS : 0 < W := by omega
  rw [int_serialize_of_room e W size offset v buf hS hsize hbuf hroom]
  have hb : hostBytes e W (hton e W v) = toBE W v := by
    rcases hW with rfl | rfl | rfl | ⟨rfl, rfl⟩
    · exact hostBytes_one e v
    · exact hostBytes_hton_eq_toBE e 2 v (Or.inl rfl)
    · exact hostBytes_hton_eq_toBE e 4 v (Or.inr rfl)
    · rfl
  rw [hb]

/-- C7. Big-endian integer wire format, evaluated where it fails: on a
little-endian host the `uint64_t` value 1 is stored as `01 00 00 00 00 00 00
00`, the host's own order, while its big-endian representation is `00 00 00
00 00 00 00 01`; the 1-, 2- and 4-byte writes of 1 on the same host are
big-endian (`00 00 00 01` for `uint32_t`). -/
theorem uint64_write_is_host_order :
    t_SerializerNType.serialize .little 8 (some (List.replicate 8 0xEE)) 8 0 1
      = some { ok := true, data := some [1, 0, 0, 0, 0, 0, 0, 0], offset := 8 } ∧
    toBE 8 1 = [0, 0, 0, 0, 0, 0, 0, 1] ∧
    hton .little 8 1 = 1 ∧
    t_SerializerNType.serialize .little 4 (some (List.replicate 4 0xEE)) 4 0 1
      = some { ok := true, data := some [0, 0, 0, 1], offset := 4 } ∧
    t_SerializerNType.serialize .little 2 (some (List.replicate 2 0xEE)) 2 0 1
      = some { ok := true, data := some [0, 1], offset := 2 } ∧
    t_SerializerNType.serialize .little 1 (some (List.replicate 1 0xEE)) 1 0 1
      = some { ok := true, data := some [1], offset := 1 } := by
  decide

/-! ## The string codec -/

theorem take_write_region (a b c : List Byte) (n : Nat) (ha : a.length + b.length = n) :
    (a ++ b ++ c).take n = a ++ b := by
  rw [List.take_append_of_le_length (by simp only [List.length_append]; omega)]
  rw [List.take_of_length_le (by simp only [List.length_append]; omega)]

theorem drop_write_region (a b c : List Byte) (n k : Nat) (ha : a.length + b.length = n) :
    (a ++ b ++ c).drop (n + k) = c.drop k := by
  have h : (a ++ b).length = n := by simp only [List.length_append]; omega
  rw [← h, List.drop_append]

theorem take_drop_write_region (a b c : List Byte) (off n : Nat) (ha : a.length = off)
    (hb : b.length = n) : ((a ++ b ++ c).drop off).take n = b := by
  subst ha hb
  rw [List.append_assoc, List.drop_left, List.take_left]

/-- With room for the length word and the characters the string write
succeeds, and the memory after it is the old memory with the 4-byte
network-order length and then the characters spliced in at `offset`. -/
theorem string_serialize_of_room (e : Endian) (s : List Byte) (size offset : Nat)
    (buf : List Byte) (hsize : size < 2 ^ 32) (hbuf : size ≤ buf.length)
    (hroom : s.length + 4 ≤ size - offset) :
    RsTypeSerializer_string.serialize e (some buf) size offset s
      = some { ok := true,
               data := some (buf.take offset ++ toBE 4 s.length ++ s
                        ++ buf.drop (offset + 4 + s.length)),
               offset := offset + 4 + s.length } := by
  have hss : RsTypeSerializer_string.serial_size s = s.length + 4 :=
    Nat.mod_eq_of_lt (by omega)
  have hguard : ¬ ((some buf : Mem).isNone ∨ size ≤ offset
      ∨ size - offset < RsTypeSerializer_string.serial_size s) := by
    rw [hss]; simp only [Option.isNone_some, Bool.false_eq_true, false_or]; omega
  have hcl : s.length % 2 ^ 32 = s.length := Nat.mod_eq_of_lt (by omega)
  have hnet : hostBytes e 4 (hton e 4 s.length) = toBE 4 s.length :=
    hostBytes_hton_eq_toBE e 4 s.length (Or.inr rfl)
  have hbl : (toBE 4 s.length).length = 4 := toBE_length 4 s.length
  have ho1 : (offset + 4) % 2 ^ 32 = offset + 4 := Nat.mod_eq_of_lt (by omega)
  have ho2 : (offset + 4 + s.length) % 2 ^ 32 = offset + 4 + s.length :=
    Nat.mod_eq_of_lt (by omega)
  have htl : (buf.take offset).length = offset := by
    simp only [List.length_take]; omega
  have hw1 := memWrite_eq_some (buf) (offset) (toBE 4 s.length)
    (by omega)
  rw [hbl] at hw1
  have hl1 := memWrite_length hw1
  have hw2 := memWrite_eq_some (buf.take offset ++ toBE 4 s.length ++ buf.drop (offset + 4)) (offset + 4) (s) (by omega)
  rw [take_write_region _ _ _ _ (by omega), drop_write_region _ _ _ _ _ (by omega),
    List.drop_drop] at hw2
  simp only [RsTypeSerializer_string.serialize, if_neg hguard, hcl, hnet, hw1, ho1,
    List.take_length, hw2, ho2]

/-- C8. String wire format: for every string `s`, every host byte order and
every buffer with `capacity - offset >= len(s) + 4`, the string write
succeeds; the memory after it is the memory before it with the 4-byte
big-endian `len(s)` at `[offset, offset+4)` followed by the raw bytes of `s`
at `[offset+4, offset+4+len(s))` (no terminator: the next byte is the old
one) and every other byte unchanged; and the offset advances by exactly
`len(s) + 4 = serial_size(s)`. -/
theorem string_wire_format (e : Endian) (s : List Byte) (size offset : Nat)
    (buf : List Byte) (hsize : size < 2 ^ 32) (hbuf : size ≤ buf.length)
    (hroom : s.length + 4 ≤ size - offset) :
    RsTypeSerializer_string.serialize e (some buf) size offset s
      = some { ok := true,
               data := some (buf.take offset ++ toBE 4 s.length ++ s
                        ++ buf.drop (offset + 4 + s.length)),
               offset := offset + RsTypeSerializer_string.serial_size s } ∧
    RsTypeSerializer_string.serial_size s = s.length + 4 := by
  have hss : RsTypeSerializer_string.serial_size s = s.length + 4 :=
    Nat.mod_eq_of_lt (by omega)
  refine ⟨?_, hss⟩
  rw [string_serialize_of_room e s size offset buf hsize hbuf hroom, hss]
  have : offset + 4 + s.length = offset + (s.length + 4) := by omega
  rw [this]

/-- Witness for C8: `"hello"` written on a little-endian host at offset 1 of
an 11-byte buffer of `0xEE` bytes gives `00 00 00 05 68 65 6C 6C 6F`,
between the untouched first and last byte. -/
theorem string_wire_format_witness :
    RsTypeSerializer_string.serialize .little (some (List.replicate 11 0xEE)) 11 1
        [0x68, 0x65, 0x6C, 0x6C, 0x6F]
      = some { ok := true,
               data := some [0xEE, 0x00, 0x00, 0x00, 0x05, 0x68, 0x65, 0x6C, 0x6C, 0x6F, 0xEE],
               offset := 10 } ∧
    RsTypeSerializer_string.serial_size [0x68, 0x65, 0x6C, 0x6C, 0x6F] = 9 :=
  string_wire_format .little [0x68, 0x65, 0x6C, 0x6C, 0x6F] 11 1 (List.replicate 11 0xEE)
    (by decide) (by decide) (by decide)

/-- The length word decoded by the string read is the big-endian value of
the four bytes, on every host. -/
theorem ntoh_ofHostBytes_four (e : Endian) (bs : List Byte) (h : bs.length = 4) :
    ntoh e 4 (ofHostBytes e bs) = ofBE bs := by
  cases e
  · have h1 := toLE_ofLE bs
    rw [h] at h1
    simp only [ntoh, ntohl, htonl, ofHostBytes, bswap, h1, ofBE, if_true]
  · rfl

theorem length_take_drop (buf : List Byte) (off n : Nat) (h : off + n ≤ buf.length) :
    ((buf.drop off).take n).length = n := by
  simp only [List.length_take, List.length_drop]; omega

/-- The string read, step by step: with fewer than 4 bytes left it fails at
once; otherwise it decodes the big-endian length word `n`, and fails with the
offset already moved past the word when no byte is left after the word or
fewer than `n` are left; otherwise it returns the `n` bytes after the word. -/
theorem string_deserialize_eq (e : Endian) (old : List Byte) (size offset : Nat)
    (buf : List Byte) (hsize : size < 2 ^ 32) (hbuf : size ≤ buf.length) :
    RsTypeSerializer_string.deserialize e (some buf) size offset old =
      if size - offset < 4 then some { ok := false, offset := offset, member := old }
      else if size ≤ offset + 4 ∨ size - (offset + 4) < ofBE ((buf.drop offset).take 4) then
        some { ok := false, offset := offset + 4, member := old }
      else
        some { ok := true, offset := offset + 4 + ofBE ((buf.drop offset).take 4),
               member := (buf.drop (offset + 4)).take (ofBE ((buf.drop offset).take 4)) } := by
  by_cases h4 : size - offset < 4
  · have hguard : ((some buf : Mem).isNone ∨ size ≤ offset ∨ size - offset < 4) := by
      right; right; exact h4
    simp only [RsTypeSerializer_string.deserialize, if_pos hguard, if_pos h4]
  · have hguard : ¬ ((some buf : Mem).isNone ∨ size ≤ offset ∨ size - offset < 4) := by
      simp only [Option.isNone_some, Bool.false_eq_true, false_or]; omega
    have hr : memRead buf offset 4 = some ((buf.drop offset).take 4) := by
      simp only [memRead]; rw [if_pos (by omega)]
    have hn := ntoh_ofHostBytes_four e ((buf.drop offset).take 4)
      (length_take_drop buf offset 4 (by omega))
    have ho1 : (offset + 4) % 2 ^ 32 = offset + 4 := Nat.mod_eq_of_lt (by omega)
    simp only [RsTypeSerializer_string.deserialize, if_neg hguard, if_neg h4, hr, hn, ho1]
    by_cases h2 : size ≤ offset + 4 ∨ size - (offset + 4) < ofBE ((buf.drop offset).take 4)
    · simp only [if_pos h2]
    · have hr2 : memRead buf (offset + 4) (ofBE ((buf.drop offset).take 4))
          = some ((buf.drop (offset + 4)).take (ofBE ((buf.drop offset).take 4))) := by
        simp only [memRead]; rw [if_pos (by omega)]
      have ho2 : (offset + 4 + ofBE ((buf.drop offset).take 4)) % 2 ^ 32
          = offset + 4 + ofBE ((buf.drop offset).take 4) := Nat.mod_eq_of_lt (by omega)
      simp only [if_neg h2, hr2, ho2]

/-- C5. String round trip including the empty string, evaluated where it
fails: the empty string written at offset 0 of a 4-byte buffer succeeds
(memory `00 00 00 00`, offset 4), but the read at offset 0 of that buffer with
the same capacity returns `false` and leaves the caller's string (`"x"`)
as it was, because after the length word `size <= offset` holds. -/
theorem empty_string_at_buffer_end_is_not_read_back :
    RsTypeSerializer_string.serialize .little (some [0xEE, 0xEE, 0xEE, 0xEE]) 4 0 []
      = some { ok := true, data := some [0, 0, 0, 0], offset := 4 } ∧
    RsTypeSerializer_string.deserialize .little (some [0, 0, 0, 0]) 4 0 [0x78]
      = some { ok := false, offset := 4, member := [0x78] } ∧
    RsTypeSerializer_string.serialize .big (some [0xEE, 0xEE, 0xEE, 0xEE]) 4 0 []
      = some { ok := true, data := some [0, 0, 0, 0], offset := 4 } ∧
    RsTypeSerializer_string.deserialize .big (some [0, 0, 0, 0]) 4 0 [0x78]
      = some { ok := false, offset := 4, member := [0x78] } := by
  decide

/-- The string round trip holds whenever at least one byte of the declared
capacity lies after the length word (the string is non-empty, or the buffer
does not end right after the word). -/
theorem string_round_trip_of_byte_after_word (e : Endian) (s old : List Byte)
    (size offset : Nat) (buf : List Byte) (hsize : size < 2 ^ 32) (hbuf : size ≤ buf.length)
    (hroom : s.length + 4 ≤ size - offset) (hafter : offset + 4 < size) :
    ∃ buf1 : List Byte,
      RsTypeSerializer_string.serialize e (some buf) size offset s
        = some { ok := true, data := some buf1, offset := offset + 4 + s.length } ∧
      RsTypeSerializer_string.deserialize e (some buf1) size offset old
        = some { ok := true, offset := offset + 4 + s.length, member := s } := by
  refine ⟨_, string_serialize_of_room e s size offset buf hsize hbuf hroom, ?_⟩
  have htl : (buf.take offset).length = offset := by
    simp only [List.length_take]; omega
  have hbl : (toBE 4 s.length).length = 4 := toBE_length 4 s.length
  have hlen1 : (buf.take offset ++ toBE 4 s.length ++ s
      ++ buf.drop (offset + 4 + s.length)).length = buf.length := by
    simp only [List.length_append, List.length_take, List.length_drop, hbl]; omega
  have hword : (List.drop offset (buf.take offset ++ toBE 4 s.length ++ s
      ++ buf.drop (offset + 4 + s.length))).take 4 = toBE 4 s.length := by
    rw [List.append_assoc (buf.take offset ++ toBE 4 s.length)]
    exact take_drop_write_region _ _ _ offset 4 htl hbl
  have hchars : (List.drop (offset + 4) (buf.take offset ++ toBE 4 s.length ++ s
      ++ buf.drop (offset + 4 + s.length))).take s.length = s := by
    have h : (buf.take offset ++ toBE 4 s.length).length = offset + 4 := by
      simp only [List.length_append, htl, hbl]
    exact take_drop_write_region _ _ _ (offset + 4) s.length h rfl
  have hval : ofBE (toBE 4 s.length) = s.length := by
    simp only [ofBE, toBE, List.reverse_reverse, ofLE_toLE]
    exact Nat.mod_eq_of_lt (by omega)
  rw [string_deserialize_eq e old size offset _ hsize (by omega), hword, hval, hchars]
  rw [if_neg (by omega), if_neg (by omega)]

/-! ## The float codec -/

/-- A non-negative float is not below zero. -/
theorem F32.ltZero_of_nonNeg (f : F32) (h : f.nonNeg = true) : f.ltZero = false := by
  unfold F32.nonNeg at h
  unfold F32.ltZero
  cases hs : f.sign <;> cases hn : f.isNaN <;> cases hz : f.isZero <;> simp_all

/-- With room for 4 bytes the write of a float that is not below zero
succeeds, stores the network-order bytes of the quantised value and advances
by 4. -/
theorem float_serialize_of_room (e : Endian) (fa : FloatArith) (f : F32)
    (size offset : Nat) (buf : List Byte) (hf : f.ltZero = false) (hsize : size < 2 ^ 32)
    (hbuf : size ≤ buf.length) (hroom : 4 ≤ size - offset) :
    RsTypeSerializer_float.serialize e fa (some buf) size offset f
      = some { ok := true,
               data := some (buf.take offset ++ toBE 4 (fa.quant f) ++ buf.drop (offset + 4)),
               offset := offset + 4 } := by
  have hguard : ¬ ((some buf : Mem).isNone ∨ size ≤ offset ∨ size - offset < 4) := by
    simp only [Option.isNone_some, Bool.false_eq_true, false_or]; omega
  have hnet : hostBytes e 4 (hton e 4 (fa.quant f)) = toBE 4 (fa.quant f) :=
    hostBytes_hton_eq_toBE e 4 _ (Or.inr rfl)
  have hbl : (toBE 4 (fa.quant f)).length = 4 := toBE_length 4 _
  have hw := memWrite_eq_some (buf) (offset) (toBE 4 (fa.quant f))
    (by omega)
  rw [hbl] at hw
  have hmod : (offset + 4) % 2 ^ 32 = offset + 4 := Nat.mod_eq_of_lt (by omega)
  simp only [RsTypeSerializer_float.serialize, if_neg hguard, hf, Bool.false_eq_true,
    if_false, hnet, hw, RsTypeSerializer_float.serial_size, hmod]

/-- The float read on a buffer at least as long as its declared capacity:
it fails when fewer than 4 bytes remain, and otherwise decodes the 4 bytes at
`offset` as a big-endian word, without moving the offset. -/
theorem float_deserialize_eq (e : Endian) (fa : FloatArith) (old : F32)
    (size offset : Nat) (buf : List Byte) (hbuf : size ≤ buf.length) :
    RsTypeSerializer_float.deserialize e fa (some buf) size offset old =
      if size ≤ offset ∨ size - offset < 4 then
        some { ok := false, offset := offset, member := old }
      else
        some { ok := true, offset := offset,
               member := fa.dequant (ofBE ((buf.drop offset).take 4)) } := by
  by_cases hg1 : size ≤ offset ∨ size - offset < 4
  · have hg : ((some buf : Mem).isNone ∨ size ≤ offset ∨ size - offset < 4) := Or.inr hg1
    simp only [RsTypeSerializer_float.deserialize, RsTypeSerializer_float.serial_size,
      if_pos hg, if_pos hg1]
  · have hg : ¬ ((some buf : Mem).isNone ∨ size ≤ offset ∨ size - offset < 4) := by
      simpa using hg1
    have hr : memRead buf offset 4 = some ((buf.drop offset).take 4) := by
      simp only [memRead]; rw [if_pos (by omega)]
    have hn := ntoh_ofHostBytes_four e ((buf.drop offset).take 4)
      (length_take_drop buf offset 4 (by omega))
    simp only [RsTypeSerializer_float.deserialize, RsTypeSerializer_float.serial_size,
      if_neg hg, if_neg hg1, hr, hn]

/-- C10. Negative floats are rejected: for every float `f < 0`, every host,
every buffer (the null pointer included), capacity and offset, the float write
returns `false`, leaves the offset unchanged and leaves the memory
unchanged. -/
theorem negative_float_write_rejected (e : Endian) (fa : FloatArith) (data : Mem)
    (size offset : Nat) (f : F32) (hf : f.ltZero = true) :
    RsTypeSerializer_float.serialize e fa data size offset f
      = some { ok := false, data := data, offset := offset } := by
  unfold RsTypeSerializer_float.serialize
  simp only [hf, if_true]
  split <;> rfl

/-- Witness for C10: `-1.0f` (sign 1, exponent 127, mantissa 0) written at
offset 0 of a 4-byte buffer. -/
theorem negative_float_write_rejected_witness :
    (F32.mk true 127 0).ltZero = true ∧
    RsTypeSerializer_float.serialize .little zeroArith (some [1, 2, 3, 4]) 4 0 (F32.mk true 127 0)
      = some { ok := false, data := some [1, 2, 3, 4], offset := 0 } :=
  ⟨by decide,
   negative_float_write_rejected .little zeroArith (some [1, 2, 3, 4]) 4 0 (F32.mk true 127 0)
     (by decide)⟩

/-! ## Bounds safety of the reads -/

/-- C9. Bounds safety of reads: for a buffer whose length equals the declared
capacity (so that any access at an index at or above the capacity would leave
the allocation), every host and every offset, each primitive read (integer of
any width, float, string) returns normally, that is, every `memcpy` it makes
stays below the capacity; an integer read fails whenever fewer than its width
bytes remain, a float read whenever fewer than 4 remain, and a string read
whenever fewer than 4 bytes remain or the decoded big-endian length word, of
any value, exceeds the bytes remaining after the word. -/
theorem reads_stay_in_bounds (e : Endian) (fa : FloatArith) (buf : List Byte)
    (size offset : Nat) (hlen : buf.length = size) (hsize : size < 2 ^ 32) :
    (∀ W old : Nat, ∃ r, t_SerializerNType.deserialize e W (some buf) size offset old = some r ∧
        (size - offset < W → r.ok = false)) ∧
    (∀ old : F32, ∃ r, RsTypeSerializer_float.deserialize e fa (some buf) size offset old
        = some r ∧ (size - offset < 4 → r.ok = false)) ∧
    (∀ old : List Byte, ∃ r, RsTypeSerializer_string.deserialize e (some buf) size offset old
        = some r ∧ (size - offset < 4 → r.ok = false) ∧
        (4 ≤ size - offset → size - offset - 4 < ofBE ((buf.drop offset).take 4) →
          r.ok = false)) := by
  refine ⟨?_, ?_, ?_⟩
  · intro W old
    by_cases hg : size ≤ offset ∨ size - offset < W
    · have h : t_SerializerNType.deserialize e W (some buf) size offset old
          = some { ok := false, offset := offset, member := old } := by
        simp only [t_SerializerNType.deserialize, if_pos hg]
      exact ⟨_, h, fun _ => rfl⟩
    · have hr : memRead buf offset W = some ((buf.drop offset).take W) := by
        simp only [memRead]; rw [if_pos (by omega)]
      have h : t_SerializerNType.deserialize e W (some buf) size offset old
          = some { ok := true, offset := (offset + W) % 2 ^ 32,
                   member := ntoh e W (ofHostBytes e ((buf.drop offset).take W)) } := by
        simp only [t_SerializerNType.deserialize, if_neg hg, hr]
      exact ⟨_, h, fun h => by omega⟩
  · intro old
    rw [float_deserialize_eq e fa old size offset buf (by omega)]
    by_cases hg : size ≤ offset ∨ size - offset < 4
    · rw [if_pos hg]; exact ⟨_, rfl, fun _ => rfl⟩
    · rw [if_neg hg]; exact ⟨_, rfl, fun h => by omega⟩
  · intro old
    rw [string_deserialize_eq e old size offset buf hsize (by omega)]
    by_cases h4 : size - offset < 4
    · rw [if_pos h4]; exact ⟨_, rfl, fun _ => rfl, fun h => by omega⟩
    · rw [if_neg h4]
      by_cases h2 : size ≤ offset + 4 ∨ size - (offset + 4) < ofBE ((buf.drop offset).take 4)
      · rw [if_pos h2]; exact ⟨_, rfl, fun _ => rfl, fun _ _ => rfl⟩
      · rw [if_neg h2]; exact ⟨_, rfl, fun h => by omega, fun _ h => by omega⟩

/-- Witness for C9: an 8-byte buffer whose length word at offset 2 is
`FF FF FF FF`. -/
theorem reads_stay_in_bounds_witness :
    (∀ W old : Nat, ∃ r, t_SerializerNType.deserialize .little W
        (some [0, 0, 0xFF, 0xFF, 0xFF, 0xFF, 1, 2]) 8 2 old = some r ∧
        (8 - 2 < W → r.ok = false)) ∧
    (∀ old : F32, ∃ r, RsTypeSerializer_float.deserialize .little zeroArith
        (some [0, 0, 0xFF, 0xFF, 0xFF, 0xFF, 1, 2]) 8 2 old = some r ∧
        (8 - 2 < 4 → r.ok = false)) ∧
    (∀ old : List Byte, ∃ r, RsTypeSerializer_string.deserialize .little
        (some [0, 0, 0xFF, 0xFF, 0xFF, 0xFF, 1, 2]) 8 2 old = some r ∧
        (8 - 2 < 4 → r.ok = false) ∧
        (4 ≤ 8 - 2 → 8 - 2 - 4 <
            ofBE ((List.drop 2 ([0, 0, 0xFF, 0xFF, 0xFF, 0xFF, 1, 2] : List Byte)).take 4) →
          r.ok = false)) :=
  reads_stay_in_bounds .little zeroArith [0, 0, 0xFF, 0xFF, 0xFF, 0xFF, 1, 2] 8 2
    (by decide) (by decide)

/-! ## Traversals -/

theorem Field.serial_size_eq_wireLength (m : Field) (h : m.wireLength < 2 ^ 32) :
    m.serial_size = m.wireLength := by
  cases m with
  | string s => exact Nat.mod_eq_of_lt h
  | _ => rfl

theorem Field.wireLength_pos (m : Field) : 0 < m.wireLength := by
  cases m <;> simp [Field.wireLength]

/-- The measuring traversal never fails and leaves the members alone. -/
theorem serial_fields_size_estimate_total (e : Endian) (fa : FloatArith) (fs : List Field) :
    ∀ ctx : SerializeContext, ∃ n : Nat,
      serial_fields e fa .SIZE_ESTIMATE ctx fs = some ({ ctx with mSize := n }, fs) := by
  induction fs with
  | nil => intro ctx; exact ⟨ctx.mSize, rfl⟩
  | cons m ms ih =>
    intro ctx
    obtain ⟨n, hn⟩ := ih { ctx with mSize := (ctx.mSize + m.serial_size) % 2 ^ 32 }
    exact ⟨n, by simp only [serial_fields, RsTypeSerializerBase.serial_process, hn]⟩

/-- Below `2 ^ 32` the measuring traversal adds the encoded lengths. -/
theorem serial_fields_size_estimate (e : Endian) (fa : FloatArith) (fs : List Field) :
    ∀ ctx : SerializeContext, ctx.mSize + wireLength fs < 2 ^ 32 →
      serial_fields e fa .SIZE_ESTIMATE ctx fs
        = some ({ ctx with mSize := ctx.mSize + wireLength fs }, fs) := by
  induction fs with
  | nil => intro ctx _; rfl
  | cons m ms ih =>
    intro ctx h
    simp only [wireLength] at h
    have hm : m.serial_size = m.wireLength := m.serial_size_eq_wireLength (by omega)
    have hmod : (ctx.mSize + m.wireLength) % 2 ^ 32 = ctx.mSize + m.wireLength :=
      Nat.mod_eq_of_lt (by omega)
    have h1 := ih { ctx with mSize := ctx.mSize + m.wireLength } (by simp only; omega)
    simp only [serial_fields, RsTypeSerializerBase.serial_process, hm, hmod, h1, wireLength,
      Nat.add_assoc]

/-- The measured size is always defined. -/
theorem size_item_total (e : Endian) (fa : FloatArith) (item : RsSerializable) :
    ∃ n : Nat, RsSerializer.size_item e fa item = some n := by
  obtain ⟨n, hn⟩ := serial_fields_size_estimate_total e fa item.fields
    { mData := none, mSize := 8, mOffset := 0, mOk := true }
  exact ⟨n, by
    simp only [RsSerializer.size_item, RsSerializable.serial_process, SerializeContext.new, hn]⟩

/-- Below `2 ^ 32` the measured size is the header length plus the encoded
lengths of the members. -/
theorem size_item_eq (e : Endian) (fa : FloatArith) (item : RsSerializable)
    (h : 8 + wireLength item.fields < 2 ^ 32) :
    RsSerializer.size_item e fa item = some (8 + wireLength item.fields) := by
  have h1 := serial_fields_size_estimate e fa item.fields
    { mData := none, mSize := 8, mOffset := 0, mOk := true } h
  simp only [RsSerializer.size_item, RsSerializable.serial_process, SerializeContext.new, h1]

theorem splice_length (buf bs : List Byte) (off : Nat) (h : off + bs.length ≤ buf.length) :
    (buf.take off ++ bs ++ buf.drop (off + bs.length)).length = buf.length := by
  simp only [List.length_append, List.length_take, List.length_drop]; omega

/-- With room for its encoding, the write of a member that is not a negative
float succeeds, advances by the encoded length and keeps the buffer length. -/
theorem Field.serialize_of_room (e : Endian) (fa : FloatArith) (m : Field)
    (size offset : Nat) (buf : List Byte) (hnn : m.nonNegFloat) (hsize : size < 2 ^ 32)
    (hbuf : size ≤ buf.length) (hroom : m.wireLength ≤ size - offset) :
    ∃ buf1 : List Byte,
      m.serialize e fa (some buf) size offset
        = some { ok := true, data := some buf1, offset := offset + m.wireLength } ∧
      buf1.length = buf.length := by
  have hint : ∀ W v : Nat, 0 < W → W ≤ size - offset → ∃ buf1 : List Byte,
      t_SerializerNType.serialize e W (some buf) size offset v
        = some { ok := true, data := some buf1, offset := offset + W } ∧
      buf1.length = buf.length := by
    intro W v hW hr
    refine ⟨_, int_serialize_of_room e W size offset v buf hW hsize hbuf hr, ?_⟩
    have hl := hostBytes_length e W (hton e W v)
    have := splice_length buf (hostBytes e W (hton e W v)) offset (by omega)
    rw [hl] at this
    exact this
  cases m with
  | u8 v => exact hint 1 v (by decide) hroom
  | u16 v => exact hint 2 v (by decide) hroom
  | u32 v => exact hint 4 v (by decide) hroom
  | u64 v => exact hint 8 v (by decide) hroom
  | time v => exact hint 8 v (by decide) hroom
  | float f =>
    simp only [Field.wireLength] at hroom
    refine ⟨_, float_serialize_of_room e fa f size offset buf
      (F32.ltZero_of_nonNeg f hnn) hsize hbuf hroom, ?_⟩
    have hl := toBE_length 4 (fa.quant f)
    have := splice_length buf (toBE 4 (fa.quant f)) offset (by omega)
    rw [hl] at this
    exact this
  | string s =>
    simp only [Field.wireLength] at hroom
    refine ⟨buf.take offset ++ toBE 4 s.length ++ s ++ buf.drop (offset + 4 + s.length),
      ?_, ?_⟩
    · simp only [Field.serialize, Field.wireLength]
      rw [string_serialize_of_room e s size offset buf hsize hbuf hroom]
      simp only [Nat.add_assoc, Nat.add_comm 4 s.length]
    · have hl := toBE_length 4 s.length
      simp only [List.length_append, List.length_take, List.length_drop, hl]
      omega

/-- The writing traversal of members that fit: every write succeeds, the
offset ends at the start offset plus the encoded lengths, the capacity and the
status flag are untouched and the buffer keeps its length. -/
theorem serial_fields_serialize_of_room (e : Endian) (fa : FloatArith) (fs : List Field) :
    ∀ (ctx : SerializeContext) (buf : List Byte), ctx.mData = some buf →
      ctx.mSize < 2 ^ 32 → ctx.mSize ≤ buf.length →
      ctx.mOffset + wireLength fs ≤ ctx.mSize → (∀ m ∈ fs, m.nonNegFloat) →
      ∃ buf1 : List Byte,
        serial_fields e fa .SERIALIZE ctx fs
          = some ({ ctx with mData := some buf1, mOffset := ctx.mOffset + wireLength fs }, fs) ∧
        buf1.length = buf.length := by
  induction fs with
  | nil =>
    intro ctx buf hd _ _ _ _
    refine ⟨buf, ?_, rfl⟩
    simp only [serial_fields, wireLength, Nat.add_zero, ← hd]
  | cons m ms ih =>
    intro ctx buf hd hsize hbuf hroom hnn
    simp only [wireLength] at hroom
    have hpos := m.wireLength_pos
    obtain ⟨buf1, hw, hl1⟩ := m.serialize_of_room e fa ctx.mSize ctx.mOffset buf
      (hnn m (List.mem_cons_self m ms)) hsize hbuf (by omega)
    obtain ⟨buf2, hrest, hl2⟩ := ih
      { ctx with mData := some buf1, mOffset := ctx.mOffset + m.wireLength } buf1 rfl
      hsize (by simp only; omega) (by simp only; omega)
      (fun m1 h1 => hnn m1 (List.mem_cons_of_mem m h1))
    refine ⟨buf2, ?_, by omega⟩
    simp only [serial_fields, RsTypeSerializerBase.serial_process, hd, hw, hrest, wireLength,
      Nat.add_assoc]

/-- No traversal changes the status flag `mOk`. -/
theorem serial_fields_mOk (e : Endian) (fa : FloatArith) (j : SerializeJob)
    (fs : List Field) : ∀ (ctx ctx1 : SerializeContext) (fs1 : List Field),
      serial_fields e fa j ctx fs = some (ctx1, fs1) → ctx1.mOk = ctx.mOk := by
  induction fs with
  | nil =>
    intro ctx ctx1 fs1 h
    simp only [serial_fields, Option.some.injEq, Prod.mk.injEq] at h
    rw [← h.1]
  | cons m ms ih =>
    intro ctx ctx1 fs1 h
    simp only [serial_fields] at h
    cases hp : RsTypeSerializerBase.serial_process e fa j ctx m with
    | none => rw [hp] at h; cases h
    | some p =>
      obtain ⟨c, m1⟩ := p
      rw [hp] at h
      simp only at h
      cases hr : serial_fields e fa j c ms with
      | none => rw [hr] at h; cases h
      | some q =>
        obtain ⟨c2, ms1⟩ := q
        rw [hr] at h
        simp only [Option.some.injEq, Prod.mk.injEq] at h
        have h2 := ih c c2 ms1 hr
        have h3 : c.mOk = ctx.mOk := by
          cases j
          · simp only [RsTypeSerializerBase.serial_process, Option.some.injEq,
              Prod.mk.injEq] at hp
            rw [← hp.1]
          · simp only [RsTypeSerializerBase.serial_process] at hp
            split at hp
            · cases hp
            · simp only [Option.some.injEq, Prod.mk.injEq] at hp
              rw [← hp.1]
          · simp only [RsTypeSerializerBase.serial_process] at hp
            split at hp
            · cases hp
            · simp only [Option.some.injEq, Prod.mk.injEq] at hp
              rw [← hp.1]
        rw [← h.1, h2, h3]

/-! ## The item-level operations -/

/-- C2. Size consistency: for every item whose members are integers, time
values, non-negative floats and strings (empty strings and zero values
included) with a total encoded size below `2 ^ 32`, every host, and every
buffer of `size >= size_item(item)` bytes on which the header write succeeds
(returns `true`, leaving the buffer's extent as it was), `serialize_item`
returns `true` and the final write offset equals `size_item(item)`. -/
theorem serialize_item_size_consistent (hc : HeaderCodec) (e : Endian) (fa : FloatArith)
    (item : RsSerializable) (buf buf0 : List Byte) (size n : Nat)
    (hfloat : ∀ m ∈ item.fields, m.nonNegFloat)
    (htotal : 8 + wireLength item.fields < 2 ^ 32)
    (hn : RsSerializer.size_item e fa item = some n)
    (hroom : n ≤ size) (hbuf : size ≤ buf.length)
    (hhdr : hc.setRsItemHeader (some buf) n item.PacketId n = (true, some buf0))
    (hlen0 : buf0.length = buf.length) :
    ∃ (buf1 : List Byte) (ctx1 : SerializeContext),
      RsSerializer.serialize_item hc e fa item (some buf) size
        = .returned true (some buf1) ctx1 ∧
      ctx1.mOffset = n := by
  have hn1 := size_item_eq e fa item htotal
  rw [hn] at hn1
  have hn2 : n = 8 + wireLength item.fields := Option.some.inj hn1
  obtain ⟨buf1, htr, _⟩ := serial_fields_serialize_of_room e fa item.fields
    { mData := some buf0, mSize := n, mOffset := 8, mOk := true } buf0 rfl
    (by simp only; omega) (by simp only; omega) (by simp only; omega) hfloat
  refine ⟨buf1, ⟨some buf1, n, 8 + wireLength item.fields, true⟩, ?_, hn2.symm⟩
  have hgt : ¬ n > size := by omega
  simp only [RsSerializer.serialize_item, hn, if_neg hgt, hhdr, SerializeContext.new,
    RsSerializable.serial_process, htr, Bool.not_true, Bool.false_eq_true, if_false]
  rw [if_neg (by simp only [ne_eq, Decidable.not_not]; exact hn2)]

/-- Witness for C2: an item with a zero `uint32_t`, an empty string, the
float `+0.0f`, a zero time value and a zero `uint8_t`, written into a 32-byte
buffer whose declared size is 30: the measured size is 29. -/
theorem serialize_item_size_consistent_witness :
    ∃ (buf1 : List Byte) (ctx1 : SerializeContext),
      RsSerializer.serialize_item rsHeader .little zeroArith
          { PacketId := 0x02123403,
            fields := [.u32 0, .string [], .float ⟨false, 0, 0⟩, .time 0, .u8 0] }
          (some (List.replicate 32 0xEE)) 30
        = .returned true (some buf1) ctx1 ∧
      ctx1.mOffset = 29 :=
  serialize_item_size_consistent rsHeader .little zeroArith
    { PacketId := 0x02123403,
      fields := [.u32 0, .string [], .float ⟨false, 0, 0⟩, .time 0, .u8 0] }
    (List.replicate 32 0xEE)
    (toBE 4 0x02123403 ++ toBE 4 29 ++ List.replicate 24 0xEE) 30 29
    (by decide) (by decide) (by decide) (by decide) (by decide) (by decide) (by decide)

/-- C4. Buffer too small: for every item, every host, every buffer and every
buffer size strictly smaller than `size_item(item)`, `serialize_item` throws
the "not enough room" error, and the memory at the throw is the caller's
memory, unchanged: neither the header nor any member has been written. -/
theorem serialize_item_buffer_too_small (hc : HeaderCodec) (e : Endian) (fa : FloatArith)
    (item : RsSerializable) (data : Mem) (size n : Nat)
    (hn : RsSerializer.size_item e fa item = some n) (hsmall : size < n) :
    RsSerializer.serialize_item hc e fa item data size
      = .threw "Cannot serialise: not enough room." data := by
  have hgt : n > size := hsmall
  simp only [RsSerializer.serialize_item, hn, if_pos hgt]

/-- Witness for C4: an item of measured size 12 and a buffer of 11 bytes,
one byte too small. -/
theorem serialize_item_buffer_too_small_witness :
    RsSerializer.size_item .little zeroArith { PacketId := 0x02123401, fields := [.u32 7] }
      = some 12 ∧
    RsSerializer.serialize_item rsHeader .little zeroArith
        { PacketId := 0x02123401, fields := [.u32 7] } (some (List.replicate 11 0xEE)) (12 - 1)
      = .threw "Cannot serialise: not enough room." (some (List.replicate 11 0xEE)) :=
  ⟨by decide,
   serialize_item_buffer_too_small rsHeader .little zeroArith
     { PacketId := 0x02123401, fields := [.u32 7] } (some (List.replicate 11 0xEE)) (12 - 1) 12
     (by decide) (by decide)⟩

/-- C1. Item round trip, evaluated where it fails: the item of sub-type 1
with the `uint32_t` member 7 is measured at 12 bytes and serialised
successfully into `02 12 34 01 00 00 00 0C 00 00 00 07`; `deserialize_item` on
that buffer, whose type tag `create_item` maps to a fresh item of the same
type, returns an item whose member is `0x02123401`, the first header word,
not 7: the read traversal starts at offset 0, not at offset 8. -/
theorem item_round_trip_reads_header_as_member :
    RsSerializer.size_item .little zeroArith { PacketId := 0x02123401, fields := [.u32 7] }
      = some 12 ∧
    RsSerializer.serialize_item rsHeader .little zeroArith
        { PacketId := 0x02123401, fields := [.u32 7] } (some (List.replicate 12 0xEE)) 12
      = .returned true (some [0x02, 0x12, 0x34, 0x01, 0, 0, 0, 12, 0, 0, 0, 7])
          { mData := some [0x02, 0x12, 0x34, 0x01, 0, 0, 0, 12, 0, 0, 0, 7],
            mSize := 12, mOffset := 12, mOk := true } ∧
    exampleCreate 0x1234 1 = some { PacketId := 0x02123401, fields := [.u32 0] } ∧
    RsSerializer.deserialize_item rsHeader exampleCreate .little zeroArith
        (some [0x02, 0x12, 0x34, 0x01, 0, 0, 0, 12, 0, 0, 0, 7]) 12
      = some (some { PacketId := 0x02123401, fields := [.u32 0x02123401] }) := by
  decide

/-- Whatever the header codec, `deserialize_item` decodes the first member
of an item from the first bytes of the buffer: for an item type with one
`uint32_t` member the returned member is the big-endian value of
`data[0 .. 4)`, the bytes the header occupies. -/
theorem deserialize_item_reads_from_offset_zero (hc : HeaderCodec)
    (create_item : Nat → Nat → Option RsSerializable) (e : Endian) (fa : FloatArith)
    (buf : List Byte) (size id old : Nat) (hsize : size < 2 ^ 32) (hbuf : size ≤ buf.length)
    (h4 : 4 ≤ size)
    (hc1 : create_item (hc.getRsItemService (hc.getRsItemId (some buf)))
      (hc.getRsItemSubType (hc.getRsItemId (some buf)))
        = some { PacketId := id, fields := [.u32 old] }) :
    RsSerializer.deserialize_item hc create_item e fa (some buf) size
      = some (some { PacketId := id, fields := [.u32 (ofBE (buf.take 4))] }) := by
  have hrd := int_deserialize_of_room e 4 size 0 old buf (by decide) hsize hbuf (by omega)
  have hn := ntoh_ofHostBytes_four e ((buf.drop 0).take 4)
    (length_take_drop buf 0 4 (by omega))
  rw [hn] at hrd
  simp only [List.drop_zero, Nat.zero_add] at hrd
  simp only [RsSerializer.deserialize_item, hc1, RsSerializable.serial_process,
    SerializeContext.new, serial_fields, RsTypeSerializerBase.serial_process,
    Field.deserialize, hrd, Option.map_some', ReadResult.map, if_true]

/-- Whenever `create_item` knows the type tag and the read traversal stays
inside the allocation, `deserialize_item` returns an item, whatever the
primitive reads returned: nothing ever clears `mOk`. -/
theorem deserialize_item_returns_item_of_known_type (hc : HeaderCodec)
    (create_item : Nat → Nat → Option RsSerializable) (e : Endian) (fa : FloatArith)
    (data : Mem) (size : Nat) (item : RsSerializable) (r : Option RsSerializable)
    (hc1 : create_item (hc.getRsItemService (hc.getRsItemId data))
      (hc.getRsItemSubType (hc.getRsItemId data)) = some item)
    (hr : RsSerializer.deserialize_item hc create_item e fa data size = some r) :
    r ≠ none := by
  simp only [RsSerializer.deserialize_item, hc1, RsSerializable.serial_process] at hr
  cases ht : serial_fields e fa .DESERIALIZE (SerializeContext.new data size) item.fields with
  | none => rw [ht] at hr; cases hr
  | some q =>
    obtain ⟨c, fs⟩ := q
    have hok : c.mOk = true := serial_fields_mOk e fa _ _ _ _ _ ht
    rw [ht] at hr
    simp only [hok, if_true, Option.some.injEq] at hr
    rw [← hr]
    exact Option.some_ne_none _

/-- C3. Malformed input is rejected, evaluated where it fails: for the item
type of sub-type 2 (a `uint32_t` and a string member) and the 8-byte buffer
`02 12 34 02 00 00 00 08` (a header with no member bytes behind it), the
string read of the traversal fails its bounds check (it returns `false` at
offset 4 of the buffer), and yet `deserialize_item` returns the partially
filled item instead of `NULL`. -/
theorem deserialize_item_returns_item_after_failed_read :
    exampleCreate 0x1234 2 = some { PacketId := 0x02123402, fields := [.u32 0, .string []] } ∧
    t_SerializerNType.deserialize .little 4 (some [0x02, 0x12, 0x34, 0x02, 0, 0, 0, 8]) 8 0 0
      = some { ok := true, offset := 4, member := 0x02123402 } ∧
    RsTypeSerializer_string.deserialize .little (some [0x02, 0x12, 0x34, 0x02, 0, 0, 0, 8]) 8 4 []
      = some { ok := false, offset := 8, member := [] } ∧
    RsSerializer.deserialize_item rsHeader exampleCreate .little zeroArith
        (some [0x02, 0x12, 0x34, 0x02, 0, 0, 0, 8]) 8
      = some (some { PacketId := 0x02123402, fields := [.u32 0x02123402, .string []] }) := by
  decide

/-! ## Unknown item types -/

/-- C13. Unknown item type: for every buffer (the null pointer and buffers
too short for any member included) and every declared size, when
`create_item` returns `NULL` for the type tag read from the header,
`deserialize_item` returns `NULL`; the outcome is a normal return, so no
member read took place; and with the base class `create_item`, which returns
`NULL` for every tag, `deserialize_item` returns `NULL` on every input. -/
theorem deserialize_item_unknown_type (hc : HeaderCodec)
    (create_item : Nat → Nat → Option RsSerializable) (e : Endian) (fa : FloatArith)
    (data : Mem) (size : Nat)
    (hnone : create_item (hc.getRsItemService (hc.getRsItemId data))
      (hc.getRsItemSubType (hc.getRsItemId data)) = none) :
    RsSerializer.deserialize_item hc create_item e fa data size = some none ∧
    RsSerializer.deserialize_item hc RsSerializer.create_item e fa data size = some none := by
  constructor
  · simp only [RsSerializer.deserialize_item, hnone]
  · simp only [RsSerializer.deserialize_item, RsSerializer.create_item]

/-- Witness for C13: a header whose tag (service `0x9999`, sub-type 1) the
example serializer does not know. -/
theorem deserialize_item_unknown_type_witness :
    RsSerializer.deserialize_item rsHeader exampleCreate .little zeroArith
        (some [0x02, 0x99, 0x99, 0x01, 0, 0, 0, 12, 0, 0, 0, 7]) 12 = some none ∧
    RsSerializer.deserialize_item rsHeader RsSerializer.create_item .little zeroArith
        (some [0x02, 0x99, 0x99, 0x01, 0, 0, 0, 12, 0, 0, 0, 7]) 12 = some none :=
  deserialize_item_unknown_type rsHeader exampleCreate .little zeroArith
    (some [0x02, 0x99, 0x99, 0x01, 0, 0, 0, 12, 0, 0, 0, 7]) 12 (by decide)

/-! ## Offsets of the primitive codecs -/

/-- C14. Read and write consume identical byte counts, evaluated where it
fails: the float `+0.0f` written at offset 0 of a 4-byte buffer succeeds and
advances the offset by 4, which is its `serial_size`; the read at offset 0 of
the resulting buffer succeeds and leaves the offset at 0. For comparison the
`uint32_t` 0 written and read at the same place advances by 4 both times. -/
theorem float_read_does_not_advance_offset :
    RsTypeSerializer_float.serialize .little zeroArith (some [0xEE, 0xEE, 0xEE, 0xEE]) 4 0
        ⟨false, 0, 0⟩
      = some { ok := true, data := some [0xFF, 0xFF, 0xFF, 0xFF], offset := 4 } ∧
    RsTypeSerializer_float.serial_size ⟨false, 0, 0⟩ = 4 ∧
    RsTypeSerializer_float.deserialize .little zeroArith (some [0xFF, 0xFF, 0xFF, 0xFF]) 4 0
        ⟨false, 0, 0⟩
      = some { ok := true, offset := 0, member := ⟨false, 0, 0⟩ } ∧
    t_SerializerNType.serialize .little 4 (some [0xEE, 0xEE, 0xEE, 0xEE]) 4 0 0
      = some { ok := true, data := some [0, 0, 0, 0], offset := 4 } ∧
    t_SerializerNType.deserialize .little 4 (some [0, 0, 0, 0]) 4 0 0
      = some { ok := true, offset := 4, member := 0 } := by
  decide

/-- The float read never moves the offset, whatever the arithmetic, the host
and the buffer. -/
theorem float_deserialize_offset (e : Endian) (fa : FloatArith) (data : Mem)
    (size offset : Nat) (old : F32) (r : ReadResult F32)
    (h : RsTypeSerializer_float.deserialize e fa data size offset old = some r) :
    r.offset = offset := by
  unfold RsTypeSerializer_float.deserialize at h
  simp only at h
  split at h
  · cases h; rfl
  · split at h
    · cases h
    · split at h
      · cases h
      · cases h; rfl

/-- C16. The offset advances only on success, evaluated where it fails: the
string read of the 5-byte buffer `00 00 00 05 61` at offset 0 returns `false`
(the length word asks for 5 bytes, 1 is left) and leaves the offset at 4, not
at 0; the caller's string is untouched. A failing integer read, float read,
integer write and string write at the same place leave the offset at 0. -/
theorem failed_string_read_advances_offset :
    RsTypeSerializer_string.deserialize .little (some [0, 0, 0, 5, 0x61]) 5 0 [0x78]
      = some { ok := false, offset := 4, member := [0x78] } ∧
    t_SerializerNType.deserialize .little 8 (some [0, 0, 0, 5, 0x61]) 5 0 0
      = some { ok := false, offset := 0, member := 0 } ∧
    RsTypeSerializer_float.deserialize .little zeroArith (some [0, 0, 0, 5, 0x61]) 3 0
        ⟨false, 0, 0⟩
      = some { ok := false, offset := 0, member := ⟨false, 0, 0⟩ } ∧
    t_SerializerNType.serialize .little 8 (some [0, 0, 0, 5, 0x61]) 5 0 0
      = some { ok := false, data := some [0, 0, 0, 5, 0x61], offset := 0 } ∧
    RsTypeSerializer_string.serialize .little (some [0, 0, 0, 5, 0x61]) 5 0 [0x61, 0x62]
      = some { ok := false, data := some [0, 0, 0, 5, 0x61], offset := 0 } := by
  decide

/-! ## The status flag -/

/-- C18. Sticky failure, evaluated where it fails: on a context whose `mOk`
is `false` the dispatcher in `SERIALIZE` mode still writes the `uint8_t` 7 into
the buffer and moves the offset from 0 to 1, and in `DESERIALIZE` mode still
overwrites the member (0 becomes 7) and moves the offset; `mOk` is neither
read nor written. -/
theorem serial_process_ignores_mOk :
    RsTypeSerializerBase.serial_process .little zeroArith .SERIALIZE
        { mData := some [0xEE], mSize := 1, mOffset := 0, mOk := false } (.u8 7)
      = some ({ mData := some [7], mSize := 1, mOffset := 1, mOk := false }, .u8 7) ∧
    RsTypeSerializerBase.serial_process .little zeroArith .DESERIALIZE
        { mData := some [7], mSize := 1, mOffset := 0, mOk := false } (.u8 0)
      = some ({ mData := some [7], mSize := 1, mOffset := 1, mOk := false }, .u8 7) := by
  decide

/-- The dispatcher does not look at `mOk`: its result on a context with the
flag cleared is its result with the flag set, up to the flag itself. -/
theorem serial_process_mOk_irrelevant (e : Endian) (fa : FloatArith) (j : SerializeJob)
    (ctx : SerializeContext) (m : Field) :
    RsTypeSerializerBase.serial_process e fa j { ctx with mOk := false } m
      = (RsTypeSerializerBase.serial_process e fa j { ctx with mOk := true } m).map
          (fun r => ({ r.1 with mOk := false }, r.2)) := by
  cases j
  · rfl
  · simp only [RsTypeSerializerBase.serial_process]
    cases m.serialize e fa ctx.mData ctx.mSize ctx.mOffset <;> rfl
  · simp only [RsTypeSerializerBase.serial_process]
    cases m.deserialize e fa ctx.mData ctx.mSize ctx.mOffset <;> rfl

/-! ## Where the read traversal starts -/

/-- C15. The read traversal of `deserialize_item`, evaluated where the claim
fails: for the 18-byte buffer that `serialize_item` produces for the item of
sub-type 2 with members 5 and `"hi"`, `deserialize_item` returns what the read
traversal started at offset 0 returns (first member `0x02123402`, the first
header word; string left empty because the second header word is taken for
its length), whereas the same traversal started at offset 8, where
`serialize_item` starts writing, decodes 5 and `"hi"`. The capacity is the
buffer size, 18, in both. -/
theorem deserialize_item_starts_at_offset_zero :
    RsSerializer.serialize_item rsHeader .little zeroArith
        { PacketId := 0x02123402, fields := [.u32 5, .string [0x68, 0x69]] }
        (some (List.replicate 18 0xEE)) 18
      = .returned true
          (some [0x02, 0x12, 0x34, 0x02, 0, 0, 0, 18, 0, 0, 0, 5, 0, 0, 0, 2, 0x68, 0x69])
          { mData := some [0x02, 0x12, 0x34, 0x02, 0, 0, 0, 18, 0, 0, 0, 5, 0, 0, 0, 2,
              0x68, 0x69],
            mSize := 18, mOffset := 18, mOk := true } ∧
    RsSerializer.deserialize_item rsHeader exampleCreate .little zeroArith
        (some [0x02, 0x12, 0x34, 0x02, 0, 0, 0, 18, 0, 0, 0, 5, 0, 0, 0, 2, 0x68, 0x69]) 18
      = some (some { PacketId := 0x02123402, fields := [.u32 0x02123402, .string []] }) ∧
    serial_fields .little zeroArith .DESERIALIZE
        (SerializeContext.new
          (some [0x02, 0x12, 0x34, 0x02, 0, 0, 0, 18, 0, 0, 0, 5, 0, 0, 0, 2, 0x68, 0x69]) 18)
        [.u32 0, .string []]
      = some ({ mData := some [0x02, 0x12, 0x34, 0x02, 0, 0, 0, 18, 0, 0, 0, 5, 0, 0, 0, 2,
                  0x68, 0x69],
                mSize := 18, mOffset := 8, mOk := true },
              [.u32 0x02123402, .string []]) ∧
    (SerializeContext.new
        (some [0x02, 0x12, 0x34, 0x02, 0, 0, 0, 18, 0, 0, 0, 5, 0, 0, 0, 2, 0x68, 0x69])
        18).mOffset = 0 ∧
    serial_fields .little zeroArith .DESERIALIZE
        { mData := some [0x02, 0x12, 0x34, 0x02, 0, 0, 0, 18, 0, 0, 0, 5, 0, 0, 0, 2, 0x68, 0x69],
          mSize := 18, mOffset := 8, mOk := true }
        [.u32 0, .string []]
      = some ({ mData := some [0x02, 0x12, 0x34, 0x02, 0, 0, 0, 18, 0, 0, 0, 5, 0, 0, 0, 2,
                  0x68, 0x69],
                mSize := 18, mOffset := 18, mOk := true },
              [.u32 5, .string [0x68, 0x69]]) := by
  decide

/-! ## Measurement -/

theorem Field.serial_size_add_mod (m : Field) (acc : Nat) :
    (acc + m.serial_size) % 2 ^ 32 = (acc + m.wireLength) % 2 ^ 32 := by
  cases m with
  | string s =>
    simp only [Field.serial_size, RsTypeSerializer_string.serial_size, Field.wireLength]
    exact (Nat.add_mod_mod acc (s.length + 4) (2 ^ 32))
  | _ => rfl

/-- The measuring traversal on any context: only `mSize` changes, by the
encoded lengths of the members modulo `2 ^ 32`; `mData` (which may be the null
pointer), `mOffset`, `mOk` and the members are as before. -/
theorem serial_fields_size_estimate_mod (e : Endian) (fa : FloatArith) (fs : List Field) :
    ∀ ctx : SerializeContext, ctx.mSize < 2 ^ 32 →
      serial_fields e fa .SIZE_ESTIMATE ctx fs
        = some ({ ctx with mSize := (ctx.mSize + wireLength fs) % 2 ^ 32 }, fs) := by
  induction fs with
  | nil =>
    intro ctx h
    simp only [serial_fields, wireLength, Nat.add_zero, Nat.mod_eq_of_lt h]
  | cons m ms ih =>
    intro ctx _
    have h1 := ih { ctx with mSize := (ctx.mSize + m.serial_size) % 2 ^ 32 }
      (Nat.mod_lt _ (by decide))
    simp only [serial_fields, RsTypeSerializerBase.serial_process, h1, wireLength]
    have h2 : ((ctx.mSize + m.serial_size) % 2 ^ 32 + wireLength ms) % 2 ^ 32
        = (ctx.mSize + (m.wireLength + wireLength ms)) % 2 ^ 32 := by
      rw [Nat.mod_add_mod, Nat.add_right_comm, ← Nat.mod_add_mod, m.serial_size_add_mod,
        Nat.mod_add_mod, Nat.add_right_comm, Nat.add_assoc]
    rw [h2]

/-- The measured size is `8` plus the encoded lengths of the members,
modulo `2 ^ 32`. -/
theorem size_item_eq_mod (e : Endian) (fa : FloatArith) (item : RsSerializable) :
    RsSerializer.size_item e fa item = some ((8 + wireLength item.fields) % 2 ^ 32) := by
  have h1 := serial_fields_size_estimate_mod e fa item.fields
    { mData := none, mSize := 8, mOffset := 0, mOk := true } (by decide)
  simp only [RsSerializer.size_item, RsSerializable.serial_process, SerializeContext.new, h1]

/-- A string member of `2 ^ 32 - 4` bytes has `serial_size` 0, and an item with
only that member is measured at 8 bytes. -/
theorem size_item_of_huge_string (e : Endian) (fa : FloatArith) (id : Nat) (s : List Byte)
    (hs : s.length = 2 ^ 32 - 4) :
    RsSerializer.size_item e fa { PacketId := id, fields := [.string s] } = some 8 ∧
    (Field.string s).serial_size = 0 ∧
    8 + wireLength [Field.string s] = 2 ^ 32 + 8 := by
  refine ⟨?_, ?_, ?_⟩
  · rw [size_item_eq_mod]
    simp only [wireLength, Field.wireLength, hs]
    norm_num
  · simp only [Field.serial_size, RsTypeSerializer_string.serial_size, hs]
    norm_num
  · simp only [wireLength, Field.wireLength, hs]
    norm_num

/-- C12, counterexample. Measurement is not `8` plus the sum of the encoded
lengths for every item: an item whose only member is a string of
`2 ^ 32 - 4` bytes is measured at 8 bytes (its string at `serial_size` 0), while
`8` plus `len(s) + 4` is `2 ^ 32 + 8`. -/
theorem size_item_wraps_modulo_two_pow_32 :
    RsSerializer.size_item .little zeroArith
        { PacketId := 0x02123404, fields := [.string (List.replicate (2 ^ 32 - 4) 0x41)] }
      = some 8 ∧
    (Field.string (List.replicate (2 ^ 32 - 4) 0x41)).serial_size = 0 ∧
    8 + wireLength [Field.string (List.replicate (2 ^ 32 - 4) 0x41)] = 2 ^ 32 + 8 :=
  size_item_of_huge_string .little zeroArith 0x02123404 (List.replicate (2 ^ 32 - 4) 0x41)
    (List.length_replicate _ _)

theorem wireLength_le_of_mem (m : Field) (fs : List Field) (h : m ∈ fs) :
    m.wireLength ≤ wireLength fs := by
  induction fs with
  | nil => cases h
  | cons a as ih =>
    simp only [wireLength]
    rcases List.mem_cons.mp h with rfl | h1
    · omega
    · have := ih h1; omega

/-- C12, as amended. Measurement: for every item whose members are primitive
fields with a total encoded size below `2 ^ 32` (8 plus the width of each
integer, 8 per time value, 4 per float, `len(s) + 4` per string),
`size_item(item)` equals 8 plus the sum of `serial_size` over the members,
each `serial_size` being the tabulated length; the measuring traversal runs on
the context with the null buffer and capacity 0, and on that and on every
other context changes only the size accumulator `mSize`, leaving buffer,
offset, status flag and the members untouched; and a second call on the item
the traversal leaves behind returns the same value. -/
theorem size_item_measures_members (e : Endian) (fa : FloatArith) (item : RsSerializable)
    (htotal : 8 + wireLength item.fields < 2 ^ 32) :
    RsSerializer.size_item e fa item = some (8 + wireLength item.fields) ∧
    (∀ m ∈ item.fields, m.serial_size = m.wireLength) ∧
    item.serial_process e fa .SIZE_ESTIMATE { (SerializeContext.new none 0) with mSize := 8 }
      = some ({ mData := none, mSize := 8 + wireLength item.fields, mOffset := 0,
                mOk := true }, item) ∧
    (∀ ctx : SerializeContext, ∃ n : Nat,
      item.serial_process e fa .SIZE_ESTIMATE ctx = some ({ ctx with mSize := n }, item)) ∧
    (∀ (ctx ctx1 : SerializeContext) (item1 : RsSerializable),
      item.serial_process e fa .SIZE_ESTIMATE ctx = some (ctx1, item1) →
      RsSerializer.size_item e fa item1 = RsSerializer.size_item e fa item) := by
  have hgen : ∀ ctx : SerializeContext, ∃ n : Nat,
      item.serial_process e fa .SIZE_ESTIMATE ctx = some ({ ctx with mSize := n }, item) := by
    intro ctx
    obtain ⟨n, hn⟩ := serial_fields_size_estimate_total e fa item.fields ctx
    exact ⟨n, by simp only [RsSerializable.serial_process, hn]⟩
  refine ⟨size_item_eq e fa item htotal, ?_, ?_, hgen, ?_⟩
  · intro m hm
    have := wireLength_le_of_mem m item.fields hm
    exact m.serial_size_eq_wireLength (by omega)
  · have h1 := serial_fields_size_estimate e fa item.fields
      { mData := none, mSize := 8, mOffset := 0, mOk := true } htotal
    simp only [RsSerializable.serial_process, SerializeContext.new, h1]
  · intro ctx ctx1 item1 hrun
    obtain ⟨n, hn⟩ := hgen ctx
    rw [hn] at hrun
    simp only [Option.some.injEq, Prod.mk.injEq] at hrun
    rw [← hrun.2]

/-- Witness for C12: an item with a `uint16_t`, a float and the string
`"hi"`: measured at `8 + 2 + 4 + 6 = 20` bytes. -/
theorem size_item_measures_members_witness :
    RsSerializer.size_item .little zeroArith
        { PacketId := 0x02123405,
          fields := [.u16 0x0102, .float ⟨false, 127, 0⟩, .string [0x68, 0x69]] }
      = some 20 :=
  (size_item_measures_members .little zeroArith
    { PacketId := 0x02123405,
      fields := [.u16 0x0102, .float ⟨false, 127, 0⟩, .string [0x68, 0x69]] }
    (by decide)).1

/-! ## Strings of four gigabytes -/

/-- When the truncated `serial_size` of a string lets the guard of the string
write pass although the length word itself does not fit the allocation, the
first `memcpy` of the write leaves the allocation. -/
theorem string_serialize_undefined_of_wrapped_size (e : Endian) (s : List Byte)
    (size offset : Nat) (buf : List Byte) (hoff : offset < size)
    (hroom : (s.length + 4) % 2 ^ 32 ≤ size - offset) (hover : buf.length < offset + 4) :
    RsTypeSerializer_string.serialize e (some buf) size offset s = none := by
  have hguard : ¬ ((some buf : Mem).isNone ∨ size ≤ offset
      ∨ size - offset < RsTypeSerializer_string.serial_size s) := by
    simp only [Option.isNone_some, Bool.false_eq_true, false_or,
      RsTypeSerializer_string.serial_size]
    omega
  have hl := hostBytes_length e 4 (hton e 4 (s.length % 2 ^ 32))
  have hw : memWrite buf offset (hostBytes e 4 (hton e 4 (s.length % 2 ^ 32))) = none := by
    simp only [memWrite, hl]
    rw [if_neg (by omega)]
  simp only [RsTypeSerializer_string.serialize, if_neg hguard, hw]

/-- The string write of a string of `2 ^ 32 - 4` bytes into a buffer of one
byte, at offset 0 with capacity 1. -/
theorem string_serialize_of_huge_string (e : Endian) (s : List Byte) (b : Byte)
    (hs : s.length = 2 ^ 32 - 4) :
    RsTypeSerializer_string.serial_size s = 0 ∧
    RsTypeSerializer_string.serialize e (some [b]) 1 0 s = none := by
  have h0 : (s.length + 4) % 2 ^ 32 = 0 := by rw [hs]; norm_num
  refine ⟨h0, ?_⟩
  exact string_serialize_undefined_of_wrapped_size e s 1 0 [b] (by decide)
    (by rw [h0]; decide) (by simp only [List.length_singleton]; decide)

/-- C17. Cursor invariant, evaluated where it fails: with a one-byte buffer,
capacity 1 and offset 0 (so `offset <= capacity` and the buffer's length is the
capacity), the write of a string of `2 ^ 32 - 4` bytes passes the bounds guard,
because its `serial_size` is truncated to 0, and its first `memcpy` (4 bytes at
offset 0) goes past the capacity: the outcome is undefined behaviour. -/
theorem huge_string_write_leaves_buffer :
    RsTypeSerializer_string.serial_size (List.replicate (2 ^ 32 - 4) 0x41) = 0 ∧
    RsTypeSerializer_string.serialize .little (some [0xEE]) 1 0
      (List.replicate (2 ^ 32 - 4) 0x41) = none :=
  string_serialize_of_huge_string .little (List.replicate (2 ^ 32 - 4) 0x41) 0xEE
    (List.length_replicate _ _)

/-- An item whose only member is a string of `2 ^ 32 - 3` bytes is measured at
9 bytes, and `serialize_item` into a 9-byte buffer writes past it. -/
theorem serialize_item_of_huge_string (e : Endian) (fa : FloatArith) (id : Nat)
    (s buf : List Byte) (hs : s.length = 2 ^ 32 - 3) (hb : buf.length = 9) :
    RsSerializer.size_item e fa { PacketId := id, fields := [.string s] } = some 9 ∧
    RsSerializer.serialize_item rsHeader e fa { PacketId := id, fields := [.string s] }
      (some buf) 9 = .undefined := by
  have hn : RsSerializer.size_item e fa { PacketId := id, fields := [.string s] } = some 9 := by
    rw [size_item_eq_mod]
    simp only [wireLength, Field.wireLength, hs]
    norm_num
  refine ⟨hn, ?_⟩
  have h1 : (s.length + 4) % 2 ^ 32 = 1 := by rw [hs]; norm_num
  have hhdr : rsHeader.setRsItemHeader (some buf) 9 id 9
      = (true, some (toBE 4 id ++ toBE 4 9 ++ buf.drop 8)) := by
    simp only [rsHeader]
    rw [if_neg (by omega)]
  have hlen : (toBE 4 id ++ toBE 4 9 ++ buf.drop 8).length = 9 := by
    simp only [List.length_append, toBE_length, List.length_drop]; omega
  have hw := string_serialize_undefined_of_wrapped_size e s 9 8
    (toBE 4 id ++ toBE 4 9 ++ buf.drop 8) (by decide) (by omega)
    (by omega)
  have hgt : ¬ 9 > 9 := by decide
  simp only [RsSerializer.serialize_item, hn, if_neg hgt, hhdr, SerializeContext.new,
    RsSerializable.serial_process, serial_fields, RsTypeSerializerBase.serial_process,
    Field.serialize, hw, Bool.not_true, Bool.false_eq_true, if_false]

/-- C20. `serialize_item` never writes past the measured size, evaluated where
it fails: the item whose only member is a string of `2 ^ 32 - 3` bytes is
measured at 9 bytes (8 plus the truncated `serial_size` 1); `serialize_item`
into a caller buffer of exactly 9 bytes passes the size test and the bounds
guard of the string write, whose first `memcpy` is 4 bytes at offset 8, past
index 9: the outcome is undefined behaviour. -/
theorem serialize_item_writes_past_measured_size :
    RsSerializer.size_item .little zeroArith
        { PacketId := 0x02123404, fields := [.string (List.replicate (2 ^ 32 - 3) 0x41)] }
      = some 9 ∧
    RsSerializer.serialize_item rsHeader .little zeroArith
        { PacketId := 0x02123404, fields := [.string (List.replicate (2 ^ 32 - 3) 0x41)] }
        (some (List.replicate 9 0xEE)) 9
      = .undefined :=
  serialize_item_of_huge_string .little zeroArith 0x02123404
    (List.replicate (2 ^ 32 - 3) 0x41) (List.replicate 9 0xEE)
    (List.length_replicate _ _) (List.length_replicate _ _)

/-! ## The writing traversal, member by member -/

/-- A primitive write that lacks room, or whose member is a float below zero,
returns `false` and changes neither the memory nor the offset. -/
theorem Field.serialize_refused (e : Endian) (fa : FloatArith) (m : Field) (data : Mem)
    (size offset : Nat) (hwl : m.wireLength < 2 ^ 32)
    (h : size - offset < m.wireLength ∨ m.writeRejected = true) :
    m.serialize e fa data size offset
      = some { ok := false, data := data, offset := offset } := by
  have hint : ∀ W v : Nat, size - offset < W →
      t_SerializerNType.serialize e W data size offset v
        = some { ok := false, data := data, offset := offset } := by
    intro W v hlt
    have hg : size ≤ offset ∨ size - offset < W := Or.inr hlt
    simp only [t_SerializerNType.serialize, if_pos hg]
  cases m with
  | u8 v => exact hint 1 v (h.resolve_right (by simp [Field.writeRejected]))
  | u16 v => exact hint 2 v (h.resolve_right (by simp [Field.writeRejected]))
  | u32 v => exact hint 4 v (h.resolve_right (by simp [Field.writeRejected]))
  | u64 v => exact hint 8 v (h.resolve_right (by simp [Field.writeRejected]))
  | time v => exact hint 8 v (h.resolve_right (by simp [Field.writeRejected]))
  | float f =>
    rcases h with h | h
    · have hg : data.isNone ∨ size ≤ offset ∨ size - offset < 4 := Or.inr (Or.inr h)
      simp only [Field.serialize, RsTypeSerializer_float.serialize,
        RsTypeSerializer_float.serial_size, if_pos hg]
    · simp only [Field.writeRejected] at h
      simp only [Field.serialize]
      unfold RsTypeSerializer_float.serialize
      simp only [h, if_true]
      split <;> rfl
  | string s =>
    have h1 : size - offset < s.length + 4 := h.resolve_right (by simp [Field.writeRejected])
    have hss : RsTypeSerializer_string.serial_size s = s.length + 4 := Nat.mod_eq_of_lt hwl
    have hg : data.isNone ∨ size ≤ offset
        ∨ size - offset < RsTypeSerializer_string.serial_size s := by
      rw [hss]; exact Or.inr (Or.inr h1)
    simp only [Field.serialize, RsTypeSerializer_string.serialize, if_pos hg]

/-- A primitive write that has room, and whose member is not a float below
zero, returns `true`, splices the member's encoding into the memory at
`offset` and advances by the encoded length. -/
theorem Field.serialize_accepted (e : Endian) (fa : FloatArith) (m : Field)
    (size offset : Nat) (buf : List Byte) (hsize : size < 2 ^ 32) (hbuf : size ≤ buf.length)
    (hroom : m.wireLength ≤ size - offset) (hacc : m.writeRejected = false) :
    ∃ bs : List Byte, bs.length = m.wireLength ∧
      m.serialize e fa (some buf) size offset
        = some { ok := true,
                 data := some (buf.take offset ++ bs ++ buf.drop (offset + m.wireLength)),
                 offset := offset + m.wireLength } := by
  have hint : ∀ W v : Nat, 0 < W → W ≤ size - offset → ∃ bs : List Byte, bs.length = W ∧
      t_SerializerNType.serialize e W (some buf) size offset v
        = some { ok := true,
                 data := some (buf.take offset ++ bs ++ buf.drop (offset + W)),
                 offset := offset + W } := by
    intro W v hW hr
    exact ⟨_, hostBytes_length e W (hton e W v),
      int_serialize_of_room e W size offset v buf hW hsize hbuf hr⟩
  cases m with
  | u8 v => exact hint 1 v (by decide) hroom
  | u16 v => exact hint 2 v (by decide) hroom
  | u32 v => exact hint 4 v (by decide) hroom
  | u64 v => exact hint 8 v (by decide) hroom
  | time v => exact hint 8 v (by decide) hroom
  | float f =>
    simp only [Field.wireLength] at hroom
    simp only [Field.writeRejected] at hacc
    exact ⟨_, toBE_length 4 (fa.quant f),
      float_serialize_of_room e fa f size offset buf hacc hsize hbuf hroom⟩
  | string s =>
    simp only [Field.wireLength] at hroom
    refine ⟨toBE 4 s.length ++ s, ?_, ?_⟩
    · simp only [List.length_append, toBE_length, Field.wireLength]; omega
    · simp only [Field.serialize, Field.wireLength]
      rw [string_serialize_of_room e s size offset buf hsize hbuf hroom]
      simp only [Nat.add_assoc, Nat.add_comm 4 s.length, List.append_assoc]

theorem splice_drop (buf bs : List Byte) (off n : Nat) (h : off + bs.length ≤ n)
    (hb : off ≤ buf.length) :
    (buf.take off ++ bs ++ buf.drop (off + bs.length)).drop n = buf.drop n := by
  have htl : (buf.take off).length = off := by
    simp only [List.length_take]; omega
  have hn : n = off + bs.length + (n - (off + bs.length)) := by omega
  rw [hn, drop_write_region _ _ _ (off + bs.length) _ (by omega), List.drop_drop]

theorem acceptedLength_le (fs : List Field) : acceptedLength fs ≤ wireLength fs := by
  induction fs with
  | nil => exact Nat.le_refl _
  | cons m ms ih =>
    simp only [acceptedLength, wireLength]
    split <;> omega

/-- The accepted length is the whole length exactly when no member is
refused. -/
theorem acceptedLength_eq_iff (fs : List Field) :
    acceptedLength fs = wireLength fs ↔ ∀ m ∈ fs, m.writeRejected = false := by
  induction fs with
  | nil => simp [acceptedLength, wireLength]
  | cons m ms ih =>
    have hle := acceptedLength_le ms
    have hpos := m.wireLength_pos
    simp only [acceptedLength, wireLength, List.mem_cons, forall_eq_or_imp]
    cases hm : m.writeRejected
    · simp only [Bool.false_eq_true, if_false, true_and]
      rw [← ih]; omega
    · simp only [if_true, Bool.true_eq_false, false_and, iff_false]
      omega

/-- The writing traversal when the capacity has room for all members: every
member that is not refused is written and advances the offset by its encoded
length, every refused member changes nothing, the recorded `bool`s are `true`
exactly for the members that are not refused, and the buffer keeps its
length. -/
theorem serial_fields_serialize_with_room (e : Endian) (fa : FloatArith) (fs : List Field) :
    ∀ (ctx : SerializeContext) (buf : List Byte), ctx.mData = some buf →
      ctx.mSize < 2 ^ 32 → ctx.mSize ≤ buf.length →
      ctx.mOffset + wireLength fs ≤ ctx.mSize →
      ∃ buf1 : List Byte,
        serial_fields e fa .SERIALIZE ctx fs
          = some ({ ctx with mData := some buf1,
                             mOffset := ctx.mOffset + acceptedLength fs }, fs) ∧
        write_results e fa ctx fs = some (fs.map fun m => !m.writeRejected) ∧
        buf1.length = buf.length := by
  induction fs with
  | nil =>
    intro ctx buf hd _ _ _
    refine ⟨buf, ?_, rfl, rfl⟩
    simp only [serial_fields, acceptedLength, Nat.add_zero, ← hd]
  | cons m ms ih =>
    intro ctx buf hd hsize hbuf hroom
    simp only [wireLength] at hroom
    have hpos := m.wireLength_pos
    cases hm : m.writeRejected
    · obtain ⟨bs, hbs, hw⟩ := m.serialize_accepted e fa ctx.mSize ctx.mOffset buf hsize hbuf
        (by omega) hm
      have hl1 : (buf.take ctx.mOffset ++ bs ++ buf.drop (ctx.mOffset + m.wireLength)).length
          = buf.length := by
        have := splice_length buf bs ctx.mOffset (by omega)
        rw [hbs] at this
        exact this
      obtain ⟨buf2, hrest, hoks, hl2⟩ := ih
        { ctx with
          mData := some (buf.take ctx.mOffset ++ bs ++ buf.drop (ctx.mOffset + m.wireLength)),
          mOffset := ctx.mOffset + m.wireLength }
        _ rfl hsize (by simp only; omega) (by simp only; omega)
      refine ⟨buf2, ?_, ?_, by omega⟩
      · simp only [serial_fields, RsTypeSerializerBase.serial_process, hd, hw, hrest,
          acceptedLength, hm, Bool.false_eq_true, if_false, Nat.add_assoc]
      · simp only [write_results, RsTypeSerializerBase.serial_process, hd, hw, hoks,
          List.map_cons, hm, Bool.not_false]
    · have hw := m.serialize_refused e fa ctx.mData ctx.mSize ctx.mOffset (by omega)
        (Or.inr hm)
      obtain ⟨buf2, hrest, hoks, hl2⟩ := ih
        { ctx with mData := ctx.mData, mOffset := ctx.mOffset } buf hd hsize hbuf
        (by simp only; omega)
      refine ⟨buf2, ?_, ?_, hl2⟩
      · simp only [serial_fields, RsTypeSerializerBase.serial_process, hw, hrest,
          acceptedLength, hm, if_true, Nat.zero_add]
      · simp only [write_results, RsTypeSerializerBase.serial_process, hw, hoks,
          List.map_cons, hm, Bool.not_true]

/-- The writing traversal of members each shorter than `2 ^ 32` bytes on a
buffer at least as long as the capacity: it returns normally, keeps the buffer
length, never moves the offset backwards or past the capacity, and leaves every
byte at an index at or above the capacity as it was. -/
theorem serial_fields_serialize_frame (e : Endian) (fa : FloatArith) (fs : List Field) :
    ∀ (ctx : SerializeContext) (buf : List Byte), ctx.mData = some buf →
      ctx.mSize < 2 ^ 32 → ctx.mSize ≤ buf.length → ctx.mOffset ≤ ctx.mSize →
      (∀ m ∈ fs, m.wireLength < 2 ^ 32) →
      ∃ (buf1 : List Byte) (off1 : Nat),
        serial_fields e fa .SERIALIZE ctx fs
          = some ({ ctx with mData := some buf1, mOffset := off1 }, fs) ∧
        buf1.length = buf.length ∧ ctx.mOffset ≤ off1 ∧ off1 ≤ ctx.mSize ∧
        buf1.drop ctx.mSize = buf.drop ctx.mSize := by
  induction fs with
  | nil =>
    intro ctx buf hd _ _ hoff _
    refine ⟨buf, ctx.mOffset, ?_, rfl, Nat.le_refl _, hoff, rfl⟩
    simp only [serial_fields, ← hd]
  | cons m ms ih =>
    intro ctx buf hd hsize hbuf hoff hwl
    have hwm := hwl m (List.mem_cons_self m ms)
    have hwms : ∀ m1 ∈ ms, m1.wireLength < 2 ^ 32 :=
      fun m1 h1 => hwl m1 (List.mem_cons_of_mem m h1)
    by_cases hacc : m.wireLength ≤ ctx.mSize - ctx.mOffset ∧ m.writeRejected = false
    · obtain ⟨bs, hbs, hw⟩ := m.serialize_accepted e fa ctx.mSize ctx.mOffset buf hsize hbuf
        hacc.1 hacc.2
      have hl1 : (buf.take ctx.mOffset ++ bs ++ buf.drop (ctx.mOffset + m.wireLength)).length
          = buf.length := by
        have := splice_length buf bs ctx.mOffset (by omega)
        rw [hbs] at this
        exact this
      have hd1 : (buf.take ctx.mOffset ++ bs
          ++ buf.drop (ctx.mOffset + m.wireLength)).drop ctx.mSize = buf.drop ctx.mSize := by
        have := splice_drop buf bs ctx.mOffset ctx.mSize (by omega) (by omega)
        rw [hbs] at this
        exact this
      obtain ⟨buf2, off2, hrest, hl2, hge, hle, hd2⟩ := ih
        { ctx with
          mData := some (buf.take ctx.mOffset ++ bs ++ buf.drop (ctx.mOffset + m.wireLength)),
          mOffset := ctx.mOffset + m.wireLength }
        _ rfl hsize (by simp only; omega) (by simp only; omega) hwms
      simp only at hge hle hd2
      refine ⟨buf2, off2, ?_, by omega, by omega, hle, by rw [hd2, hd1]⟩
      simp only [serial_fields, RsTypeSerializerBase.serial_process, hd, hw, hrest]
    · have hw := m.serialize_refused e fa ctx.mData ctx.mSize ctx.mOffset hwm (by
        cases hr : m.writeRejected
        · left
          have : ¬ m.wireLength ≤ ctx.mSize - ctx.mOffset := fun h => hacc ⟨h, hr⟩
          omega
        · right; rfl)
      obtain ⟨buf2, off2, hrest, hl2, hge, hle, hd2⟩ := ih
        { ctx with mData := ctx.mData, mOffset := ctx.mOffset } buf hd hsize hbuf hoff hwms
      refine ⟨buf2, off2, ?_, hl2, hge, hle, hd2⟩
      simp only [serial_fields, RsTypeSerializerBase.serial_process, hw, hrest]

/-! ## The size cross-check of `serialize_item` -/

/-- C19. The size cross-check catches every failed member write: for every
item whose members are primitive fields with a total encoded size below
`2 ^ 32`, every host, and every buffer of `size >= size_item(item)` bytes on
which the header write succeeds, `serialize_item` returns normally, and it
returns `true` if and only if every primitive write of the traversal returned
`true` (`oks` are the `bool`s the dispatcher drops); in particular an item
with a float below zero makes it return `false`. -/
theorem serialize_item_true_iff_writes_true (hc : HeaderCodec) (e : Endian)
    (fa : FloatArith) (item : RsSerializable) (buf buf0 : List Byte) (size n : Nat)
    (htotal : 8 + wireLength item.fields < 2 ^ 32)
    (hn : RsSerializer.size_item e fa item = some n)
    (hroom : n ≤ size) (hbuf : size ≤ buf.length)
    (hhdr : hc.setRsItemHeader (some buf) n item.PacketId n = (true, some buf0))
    (hlen0 : buf0.length = buf.length) :
    ∃ (oks : List Bool) (b : Bool) (buf1 : List Byte) (ctx1 : SerializeContext),
      write_results e fa { mData := some buf0, mSize := n, mOffset := 8, mOk := true }
        item.fields = some oks ∧
      RsSerializer.serialize_item hc e fa item (some buf) size
        = .returned b (some buf1) ctx1 ∧
      (b = true ↔ ∀ ok ∈ oks, ok = true) ∧
      ((∃ f : F32, Field.float f ∈ item.fields ∧ f.ltZero = true) → b = false) := by
  have hn1 := size_item_eq e fa item htotal
  rw [hn] at hn1
  have hn2 : n = 8 + wireLength item.fields := Option.some.inj hn1
  obtain ⟨buf1, htr, hoks, _⟩ := serial_fields_serialize_with_room e fa item.fields
    { mData := some buf0, mSize := n, mOffset := 8, mOk := true } buf0 rfl
    (by simp only; omega) (by simp only; omega) (by simp only; omega)
  have hall : (∀ ok ∈ item.fields.map (fun m => !m.writeRejected), ok = true)
      ↔ acceptedLength item.fields = wireLength item.fields := by
    rw [acceptedLength_eq_iff]
    simp only [List.mem_map, forall_exists_index, and_imp, forall_apply_eq_imp_iff₂,
      Bool.not_eq_true']
  have hgt : ¬ n > size := by omega
  by_cases heq : acceptedLength item.fields = wireLength item.fields
  · refine ⟨_, true, buf1, ⟨some buf1, n, 8 + acceptedLength item.fields, true⟩, hoks, ?_, ?_, ?_⟩
    · simp only [RsSerializer.serialize_item, hn, if_neg hgt, hhdr, SerializeContext.new,
        RsSerializable.serial_process, htr, Bool.not_true, Bool.false_eq_true, if_false]
      rw [if_neg (by simp only [ne_eq, Decidable.not_not]; omega)]
    · simp only [true_iff]; exact hall.mpr heq
    · rintro ⟨f, hmem, hneg⟩
      have := (acceptedLength_eq_iff item.fields).mp heq (.float f) hmem
      simp only [Field.writeRejected] at this
      rw [hneg] at this
      cases this
  · refine ⟨_, false, buf1, ⟨some buf1, n, 8 + acceptedLength item.fields, true⟩, hoks, ?_, ?_,
      fun _ => rfl⟩
    · simp only [RsSerializer.serialize_item, hn, if_neg hgt, hhdr, SerializeContext.new,
        RsSerializable.serial_process, htr, Bool.not_true, Bool.false_eq_true, if_false]
      rw [if_pos (by simp only [ne_eq]; omega)]
    · simp only [Bool.false_eq_true, false_iff]
      exact fun h => heq (hall.mp h)

/-- Witness for C19: an item with the `uint32_t` 1, the float `-1.0f` and the
`uint8_t` 2, measured at 17 bytes, written into a 17-byte buffer. -/
theorem serialize_item_true_iff_writes_true_witness :
    ∃ (oks : List Bool) (b : Bool) (buf1 : List Byte) (ctx1 : SerializeContext),
      write_results .little zeroArith
        { mData := some (toBE 4 0x02123406 ++ toBE 4 17 ++ List.replicate 9 0xEE),
          mSize := 17, mOffset := 8, mOk := true }
        [.u32 1, .float ⟨true, 127, 0⟩, .u8 2] = some oks ∧
      RsSerializer.serialize_item rsHeader .little zeroArith
          { PacketId := 0x02123406, fields := [.u32 1, .float ⟨true, 127, 0⟩, .u8 2] }
          (some (List.replicate 17 0xEE)) 17
        = .returned b (some buf1) ctx1 ∧
      (b = true ↔ ∀ ok ∈ oks, ok = true) ∧
      ((∃ f : F32, Field.float f ∈ [Field.u32 1, .float ⟨true, 127, 0⟩, .u8 2]
          ∧ f.ltZero = true) → b = false) :=
  serialize_item_true_iff_writes_true rsHeader .little zeroArith
    { PacketId := 0x02123406, fields := [.u32 1, .float ⟨true, 127, 0⟩, .u8 2] }
    (List.replicate 17 0xEE)
    (toBE 4 0x02123406 ++ toBE 4 17 ++ List.replicate 9 0xEE) 17 17
    (by decide) (by decide) (by decide) (by decide) (by decide) (by decide)

/-- For an item with a total encoded size below `2 ^ 32`, `serialize_item`
leaves every byte at an index at or above the measured size as the header
write left it. -/
theorem serialize_item_frame (hc : HeaderCodec) (e : Endian) (fa : FloatArith)
    (item : RsSerializable) (buf buf0 : List Byte) (size n : Nat)
    (htotal : 8 + wireLength item.fields < 2 ^ 32)
    (hn : RsSerializer.size_item e fa item = some n)
    (hroom : n ≤ size) (hbuf : size ≤ buf.length)
    (hhdr : hc.setRsItemHeader (some buf) n item.PacketId n = (true, some buf0))
    (hlen0 : buf0.length = buf.length) :
    ∃ (b : Bool) (buf1 : List Byte) (ctx1 : SerializeContext),
      RsSerializer.serialize_item hc e fa item (some buf) size
        = .returned b (some buf1) ctx1 ∧
      buf1.length = buf.length ∧ buf1.drop n = buf0.drop n := by
  have hn1 := size_item_eq e fa item htotal
  rw [hn] at hn1
  have hn2 : n = 8 + wireLength item.fields := Option.some.inj hn1
  have hwl : ∀ m ∈ item.fields, m.wireLength < 2 ^ 32 := by
    intro m hm
    have : ∀ fs : List Field, m ∈ fs → m.wireLength ≤ wireLength fs := by
      intro fs
      induction fs with
      | nil => intro h; cases h
      | cons a as ih =>
        intro h
        simp only [wireLength]
        rcases List.mem_cons.mp h with rfl | h1
        · omega
        · have := ih h1; omega
    have := this item.fields hm
    omega
  obtain ⟨buf1, off1, htr, hl1, _, _, hd1⟩ := serial_fields_serialize_frame e fa item.fields
    { mData := some buf0, mSize := n, mOffset := 8, mOk := true } buf0 rfl
    (by simp only; omega) (by simp only; omega) (by simp only; omega) hwl
  have hgt : ¬ n > size := by omega
  by_cases heq : n = off1
  · refine ⟨true, buf1, ⟨some buf1, n, off1, true⟩, ?_, by omega, hd1⟩
    simp only [RsSerializer.serialize_item, hn, if_neg hgt, hhdr, SerializeContext.new,
      RsSerializable.serial_process, htr, Bool.not_true, Bool.false_eq_true, if_false]
    rw [if_neg (by simp only [ne_eq, Decidable.not_not]; exact heq)]
  · refine ⟨false, buf1, ⟨some buf1, n, off1, true⟩, ?_, by omega, hd1⟩
    simp only [RsSerializer.serialize_item, hn, if_neg hgt, hhdr, SerializeContext.new,
      RsSerializable.serial_process, htr, Bool.not_true, Bool.false_eq_true, if_false]
    rw [if_pos (by simp only [ne_eq]; exact heq)]

/-! ## The cursor invariant for members shorter than four gigabytes -/

/-- For a buffer as long as the capacity and a member whose encoded length is
below `2 ^ 32`, a primitive write returns normally with the offset still at or
below the capacity and the buffer length unchanged. -/
theorem Field.serialize_in_bounds (e : Endian) (fa : FloatArith) (m : Field)
    (buf : List Byte) (size offset : Nat) (hlen : buf.length = size) (hsize : size < 2 ^ 32)
    (hoff : offset ≤ size) (hwl : m.wireLength < 2 ^ 32) :
    ∃ (ok : Bool) (buf1 : List Byte) (off1 : Nat),
      m.serialize e fa (some buf) size offset
        = some { ok := ok, data := some buf1, offset := off1 } ∧
      off1 ≤ size ∧ buf1.length = size := by
  by_cases hacc : m.wireLength ≤ size - offset ∧ m.writeRejected = false
  · obtain ⟨bs, hbs, hw⟩ := m.serialize_accepted e fa size offset buf hsize (by omega)
      hacc.1 hacc.2
    refine ⟨true, _, _, hw, by omega, ?_⟩
    have := splice_length buf bs offset (by omega)
    rw [hbs] at this
    omega
  · have hw := m.serialize_refused e fa (some buf) size offset hwl (by
      cases hr : m.writeRejected
      · left
        have : ¬ m.wireLength ≤ size - offset := fun h => hacc ⟨h, hr⟩
        omega
      · right; rfl)
    exact ⟨false, buf, offset, hw, hoff, hlen⟩

/-- For a buffer as long as the capacity, a primitive read of any member
returns normally with the offset still at or below the capacity. -/
theorem Field.deserialize_in_bounds (e : Endian) (fa : FloatArith) (m : Field)
    (buf : List Byte) (size offset : Nat) (hlen : buf.length = size) (hsize : size < 2 ^ 32)
    (hoff : offset ≤ size) :
    ∃ r : ReadResult Field,
      m.deserialize e fa (some buf) size offset = some r ∧ r.offset ≤ size := by
  have hint : ∀ (W v : Nat) (g : Nat → Field), 0 < W → ∃ r : ReadResult Field,
      (t_SerializerNType.deserialize e W (some buf) size offset v).map (ReadResult.map g)
        = some r ∧ r.offset ≤ size := by
    intro W v g hW
    by_cases hr : W ≤ size - offset
    · rw [int_deserialize_of_room e W size offset v buf hW hsize (by omega) hr]
      exact ⟨_, rfl, by simp only [ReadResult.map]; omega⟩
    · rw [int_deserialize_of_no_room e W size offset v (some buf) (by omega)]
      exact ⟨_, rfl, hoff⟩
  cases m with
  | u8 v => exact hint 1 v .u8 (by decide)
  | u16 v => exact hint 2 v .u16 (by decide)
  | u32 v => exact hint 4 v .u32 (by decide)
  | u64 v => exact hint 8 v .u64 (by decide)
  | time v => exact hint 8 v .time (by decide)
  | float f =>
    simp only [Field.deserialize]
    rw [float_deserialize_eq e fa f size offset buf (by omega)]
    split <;> exact ⟨_, rfl, hoff⟩
  | string s =>
    simp only [Field.deserialize]
    rw [string_deserialize_eq e s size offset buf hsize (by omega)]
    by_cases h4 : size - offset < 4
    · rw [if_pos h4]; exact ⟨_, rfl, hoff⟩
    · rw [if_neg h4]
      by_cases h2 : size ≤ offset + 4 ∨ size - (offset + 4) < ofBE ((buf.drop offset).take 4)
      · rw [if_pos h2]; exact ⟨_, rfl, by simp only [ReadResult.map]; omega⟩
      · rw [if_neg h2]; exact ⟨_, rfl, by simp only [ReadResult.map]; omega⟩

/-! ## The binary32 model -/

theorem halvings_eq (k : Nat) : ∀ fuel n : Nat, 2 ^ k ≤ n → n < 2 ^ (k + 1) → k ≤ fuel →
    halvings fuel n = k := by
  induction k with
  | zero =>
    intro fuel n _ h2 _
    cases fuel with
    | zero => rfl
    | succ f =>
      have : n < 2 := by simpa using h2
      simp only [halvings, if_pos this]
  | succ k ih =>
    intro fuel n h1 h2 hf
    cases fuel with
    | zero => omega
    | succ f =>
      have hk : 1 ≤ 2 ^ k := Nat.one_le_two_pow
      have h2n : ¬ n < 2 := by
        rw [pow_succ] at h1; omega
      have := ih f (n / 2) (by rw [pow_succ] at h1; omega) (by rw [pow_succ] at h2; omega)
        (by omega)
      simp only [halvings, if_neg h2n, this]

theorem halvings_self (k n : Nat) (h1 : 2 ^ k ≤ n) (h2 : n < 2 ^ (k + 1)) :
    halvings n n = k :=
  halvings_eq k n n h1 h2 (by have := @Nat.lt_two_pow k; omega)

/-- With the number itself as fuel, `halvings` is the binary logarithm. -/
theorem halvings_self_eq_log2 (n : Nat) : halvings n n = Nat.log2 n := by
  by_cases h : n = 0
  · subst h; rw [Nat.log2_zero]; rfl
  · exact halvings_self (Nat.log2 n) n (Nat.log2_self_le h) Nat.lt_log2_self

theorem divRNE_exact (c d : Nat) (hd : 0 < d) : divRNE (c * d) d = c := by
  simp only [divRNE, Nat.mul_mod_left, Nat.mul_zero, hd, if_true, Nat.mul_div_cancel _ hd]

/-- Rounding is exact on the floats: the magnitude of every finite float
rounds to that float. -/
theorem roundF32_num (f : F32) (hfin : f.expo.val < 255) :
    roundF32 f.num (2 ^ 149) = { f with sign := false } := by
  have hp : 0 < 2 ^ 149 := Nat.two_pow_pos 149
  have hm : f.mant.val < 2 ^ 23 := f.mant.isLt
  unfold roundF32
  simp only [Nat.mul_div_cancel _ hp]
  by_cases h0 : f.expo.val = 0
  · have hnum : f.num = f.mant.val := by simp only [F32.num, if_pos h0]
    have heb : halvings f.num f.num - 23 = 0 := by
      rw [hnum, halvings_self_eq_log2]
      by_cases hz : f.mant.val = 0
      · rw [hz, Nat.log2_zero]
      · have := (Nat.log2_lt hz).mpr hm
        omega
    rw [heb, hnum, Nat.pow_zero, Nat.mul_one, divRNE_exact _ _ hp]
    simp only [packF32, if_pos hm]
    have he : f.expo = 0 := Fin.ext h0
    have hmm : (⟨f.mant.val % 2 ^ 23, Nat.mod_lt _ (by decide)⟩ : Fin (2 ^ 23)) = f.mant :=
      Fin.ext (Nat.mod_eq_of_lt hm)
    rw [hmm, ← he]
  · have hnum : f.num = (2 ^ 23 + f.mant.val) * 2 ^ (f.expo.val - 1) := by
      simp only [F32.num, if_neg h0]
    have hpk : 0 < 2 ^ (f.expo.val - 1) := Nat.two_pow_pos _
    have hlo : 2 ^ (23 + (f.expo.val - 1)) ≤ f.num := by
      rw [hnum, pow_add]
      exact Nat.mul_le_mul_right _ (by omega)
    have hhi : f.num < 2 ^ (23 + (f.expo.val - 1) + 1) := by
      rw [hnum, show 23 + (f.expo.val - 1) + 1 = 24 + (f.expo.val - 1) by omega, pow_add]
      exact Nat.mul_lt_mul_of_pos_right (by omega) hpk
    have heb : halvings f.num f.num - 23 = f.expo.val - 1 := by
      rw [halvings_self _ _ hlo hhi]; omega
    have hmul : f.num * 2 ^ 149 = (2 ^ 23 + f.mant.val) * (2 ^ 149 * 2 ^ (f.expo.val - 1)) := by
      rw [hnum]; ring
    rw [heb, hmul, divRNE_exact _ _ (Nat.mul_pos hp hpk)]
    have hne : ¬ (2 ^ 23 + f.mant.val = 2 ^ 24) := by omega
    have hge : ¬ (2 ^ 23 + f.mant.val < 2 ^ 23) := by omega
    have hex : ¬ (255 ≤ f.expo.val - 1 + 1 + 0) := by omega
    simp only [packF32, if_neg hge, if_neg hne, if_neg hex]
    have hee : (⟨(f.expo.val - 1 + 1 + 0) % 256, Nat.mod_lt _ (by decide)⟩ : Fin 256)
        = f.expo := Fin.ext (by simp only; omega)
    have hmm : (⟨(2 ^ 23 + f.mant.val) % 2 ^ 23, Nat.mod_lt _ (by decide)⟩ : Fin (2 ^ 23))
        = f.mant := Fin.ext (by simp only; omega)
    rw [hee, hmm]

set_option maxRecDepth 8000

/-- Rounding on values between two floats: `2 ^ 24 + 1` is a tie and goes to
the even neighbour `2 ^ 24`, `2 ^ 24 + 3` is a tie and goes to the even
neighbour `2 ^ 24 + 4`, `2 ^ 24 + 5` goes to the nearer `2 ^ 24 + 4`;
`0xFFFFFFFF` converts to `2 ^ 32`; `1 / 3` rounds to `0x3EAAAAAB`; and
`1.0f + 1.0f` is `2.0f`. -/
theorem roundF32_between_floats :
    roundF32 (2 ^ 24 + 1) 1 = ⟨false, 151, 0⟩ ∧
    roundF32 (2 ^ 24 + 3) 1 = ⟨false, 151, 2⟩ ∧
    roundF32 (2 ^ 24 + 5) 1 = ⟨false, 151, 2⟩ ∧
    u32ToF32 (2 ^ 32 - 1) = ⟨false, 159, 0⟩ ∧
    roundF32 1 3 = ⟨false, 125, 0x2AAAAB⟩ ∧
    F32.one.add F32.one = ⟨false, 128, 0⟩ := by
  decide

/-! ## Accuracy of the float codec -/

/-- C11. Float round-trip accuracy, evaluated where it fails, in binary32
arithmetic: the float nearest to `1e-5` (`0x3727C5AC`) is encoded as
`n = 0xFFFF5800` and decoded as `1.00135803e-5` (`0x37280000`), a relative
error above `1.3e-3`; the float `1e9` (`0x4E6E6B28`) is encoded as `n = 4` and
decoded as `2 ^ 30`, a relative error above 7%; the float nearest to `5e-8`
(`0x3356BF95`), like every float below `1e-7`, is encoded as `0xFFFFFFFF` and
decoded as `0.0`, a relative error of 100%. Each exceeds `1e-4`, in the first
case thirteenfold; `1.0f` round-trips exactly. -/
theorem float_round_trip_error_exceeds_bound :
    RsTypeSerializer_float.serialize .little ieeeArith (some [0xEE, 0xEE, 0xEE, 0xEE]) 4 0
        ⟨false, 110, 2606508⟩
      = some { ok := true, data := some [0xFF, 0xFF, 0x58, 0x00], offset := 4 } ∧
    RsTypeSerializer_float.deserialize .little ieeeArith (some [0xFF, 0xFF, 0x58, 0x00]) 4 0
        ⟨false, 0, 0⟩
      = some { ok := true, offset := 0, member := ⟨false, 110, 2621440⟩ } ∧
    13 * (F32.mk false 110 2606508).num
      < 10000 * ((F32.mk false 110 2621440).num - (F32.mk false 110 2606508).num) ∧
    RsTypeSerializer_float.serialize .little ieeeArith (some [0xEE, 0xEE, 0xEE, 0xEE]) 4 0
        ⟨false, 156, 7236392⟩
      = some { ok := true, data := some [0x00, 0x00, 0x00, 0x04], offset := 4 } ∧
    RsTypeSerializer_float.deserialize .little ieeeArith (some [0x00, 0x00, 0x00, 0x04]) 4 0
        ⟨false, 0, 0⟩
      = some { ok := true, offset := 0, member := ⟨false, 157, 0⟩ } ∧
    7 * (F32.mk false 156 7236392).num
      < 100 * ((F32.mk false 157 0).num - (F32.mk false 156 7236392).num) ∧
    RsTypeSerializer_float.serialize .little ieeeArith (some [0xEE, 0xEE, 0xEE, 0xEE]) 4 0
        ⟨false, 102, 5685141⟩
      = some { ok := true, data := some [0xFF, 0xFF, 0xFF, 0xFF], offset := 4 } ∧
    RsTypeSerializer_float.deserialize .little ieeeArith (some [0xFF, 0xFF, 0xFF, 0xFF]) 4 0
        ⟨false, 127, 0⟩
      = some { ok := true, offset := 0, member := ⟨false, 0, 0⟩ } ∧
    0 < (F32.mk false 102 5685141).num ∧ (F32.mk false 0 0).num = 0 ∧
    ieeeArith.quant ⟨false, 127, 0⟩ = 0x80000000 ∧
    ieeeArith.dequant 0x80000000 = ⟨false, 127, 0⟩ := by
  decide

end RetroShare
